import Mathlib

/-
Shallow embedding of the dependency-graph core of `src/prefect/core/flow.py`.

Modelling conventions:
* A Python `Task` object is identified by its object identity; we carry an `oid`
  field so that two tasks with byte-identical attribute payloads are still
  distinct values.  `slug = ""` models a falsy slug (`None` or the empty
  string, which the source treats alike via `if task.slug`).  `payload`
  abstracts the identity-relevant attribute bundle consumed by
  `get_task_info`/`jsonpickle` (that helper lives outside `src/`; the spec
  describes it as an opaque canonical serialization).  The declared call
  signature of `Task.run` is modelled from the spec by `runParams`,
  `hasVarKeyword` and `hasVarArgs` (dynamic `inspect.signature` introspection
  is outside `src/`).
* Python `set`s of tasks/edges are modelled as insertion-ordered duplicate-free
  lists; `set.add` is `listAdd`.  Set iteration order in CPython is arbitrary;
  all theorems below quantify over arbitrary list orders, which subsumes any
  iteration order.
* Exceptions are modelled by `Except Err`; mutation of `self` is modelled by
  returning the new `Flow` together with the outcome, so that an exception
  raised mid-mutation leaves the partially mutated state visible exactly as in
  Python.  `Err.fuelExhausted` is a model artifact marking non-termination of
  the `while` re-hash loop of `generate_task_ids` (cut off by fuel).
* The `@cache(validation_fn=flow_cache_key)` decorator memoizes pure functions
  of `(tasks, edges)`; it is semantically transparent and modelled by plain
  recomputation.
-/

namespace Prefect

structure Task where
  oid : Nat
  slug : String
  payload : Nat
  isParameter : Bool
  runParams : List String
  hasVarKeyword : Bool
  hasVarArgs : Bool
deriving DecidableEq, Repr

structure Edge where
  upstream : Task
  downstream : Task
  key : Option String
deriving DecidableEq, Repr

structure Flow where
  name : String
  version : Option String
  tasks : List Task
  edges : List Edge
deriving DecidableEq, Repr

/-- Error kinds raised by the graph core, in the spec's taxonomy.  The source
raises `ValueError` for `duplicateSlug`, `invalidDependency`, `duplicateKey`
and `cyclicGraph`, `TypeError` for `signatureBind` (from `bind_partial`) and
`typeError` (from `sorted` comparing `None` with `str`), and `KeyError` for a
missing adjacency-dict key; distinct constructors keep the trigger sites
distinguishable. -/
inductive Err where
  | duplicateSlug
  | invalidDependency
  | duplicateKey
  | signatureBind
  | cyclicGraph
  | keyError
  | varArgs
  | typeError
  | fuelExhausted
deriving DecidableEq, Repr

/-- Python `set.add`: insert unless already a member (insertion order kept). -/
def listAdd {α : Type} [DecidableEq α] (l : List α) (a : α) : List α :=
  if a ∈ l then l else l ++ [a]

/-- Body of `all_upstream_edges`: the edges whose downstream endpoint is `t`. -/
def edgesToList (f : Flow) (t : Task) : List Edge :=
  f.edges.filter (fun e => e.downstream == t)

/-- Body of `all_downstream_edges`: the edges whose upstream endpoint is `t`. -/
def edgesFromList (f : Flow) (t : Task) : List Edge :=
  f.edges.filter (fun e => e.upstream == t)

/-- `Flow.edges_to`: a lookup in the adjacency dict built over `self.tasks`;
for a task outside the task set the dict lookup raises `KeyError`, modelled by
`none`. -/
def edgesTo (f : Flow) (t : Task) : Option (List Edge) :=
  if t ∈ f.tasks then some (edgesToList f t) else none

/-- `Flow.edges_from`, with the same `KeyError` behaviour as `edgesTo`. -/
def edgesFrom (f : Flow) (t : Task) : Option (List Edge) :=
  if t ∈ f.tasks then some (edgesFromList f t) else none

/-- `Flow.upstream_tasks` for a task known to be in the task set (the only way
`sorted_tasks` calls it; the dict never misses there). -/
def upstreamTasksOf (f : Flow) (t : Task) : List Task :=
  (edgesToList f t).map Edge.upstream

/-- `Flow.downstream_tasks` for a task known to be in the task set. -/
def downstreamTasksOf (f : Flow) (t : Task) : List Task :=
  (edgesFromList f t).map Edge.downstream

/-- One full scan over the snapshot (`remaining_tasks.copy()`) of the main
loop of `Flow.sorted_tasks`: a task is emitted once none of its upstream tasks
is still in the (current, sequentially updated) remaining list; the `Bool`
mirrors the negation of the `cyclic` flag (`true` once anything was emitted). -/
def scanPass (ups : Task → List Task) :
    List Task → List Task → List Task → Bool → List Task × List Task × Bool
  | [], rem, sorted, emitted => (rem, sorted, emitted)
  | t :: snap, rem, sorted, emitted =>
    if (ups t).all (fun u => !(decide (u ∈ rem))) then
      scanPass ups snap (rem.erase t) (sorted ++ [t]) true
    else
      scanPass ups snap rem sorted emitted

/-- The `while remaining_tasks:` loop of `Flow.sorted_tasks`: run scan passes
until the remaining list empties; a pass that emits nothing raises
`ValueError("Flows must be acyclic!")` (`CyclicGraphError` in the spec).
Every productive pass removes at least one remaining task, so the loop is
fuelled by the initial length of the remaining list, keeping the recursion
structural (and hence computable by reduction); the `fuelExhausted` branch is
unreachable at that fuel, as the lemmas below establish. -/
def sortLoop (ups : Task → List Task) : Nat → List Task → List Task → Except Err (List Task)
  | _, [], sorted => .ok sorted
  | 0, _ :: _, _ => .error .fuelExhausted
  | fuel + 1, t :: rem, sorted =>
    if (scanPass ups (t :: rem) (t :: rem) sorted false).2.2 = true then
      sortLoop ups fuel (scanPass ups (t :: rem) (t :: rem) sorted false).1
        (scanPass ups (t :: rem) (t :: rem) sorted false).2.1
    else .error .cyclicGraph

/-- `Flow.sorted_tasks()` with no restricting root set (the only form the
claims and the rest of the core use; the `root_tasks` argument would first
take a forward closure and is omitted here). -/
def sortedTasks (f : Flow) : Except Err (List Task) :=
  sortLoop (upstreamTasksOf f) f.tasks.length f.tasks []

/-- `Flow.validate`: run `sorted_tasks` purely for its cycle check. -/
def flowValidate (f : Flow) : Except Err Unit :=
  match sortedTasks f with
  | .ok _ => .ok ()
  | .error e => .error e

/-- Python truthiness of an optional-string `key` (`if key` is false for both
`None` and `""`). -/
def pyTruthy : Option String → Bool
  | none => false
  | some s => !(s == "")

/-- `Flow.add_task`.  The `isinstance(task, Task)` type check cannot fail in
this typed embedding and is omitted; the slug check raises exactly when the
task is new, has a truthy slug and the slug already occurs. -/
def addTask (f : Flow) (t : Task) : Flow × Except Err Unit :=
  if t ∉ f.tasks ∧ t.slug ≠ "" ∧ t.slug ∈ f.tasks.map Task.slug then
    (f, .error .duplicateSlug)
  else
    ({ f with tasks := listAdd f.tasks t }, .ok ())

/-- `Flow.restore_graph_on_error`: snapshot `tasks`/`edges`, run the body, run
`validate()` afterwards when requested, and restore both sets (re-raising the
same exception) if anything raised. -/
def withRestore (f : Flow) (validate : Bool) (body : Flow → Flow × Except Err Unit) :
    Flow × Except Err Unit :=
  match body f with
  | (f2, .error e) => ({ f2 with tasks := f.tasks, edges := f.edges }, .error e)
  | (f2, .ok ()) =>
    if validate then
      match flowValidate f2 with
      | .error e => ({ f2 with tasks := f.tasks, edges := f.edges }, .error e)
      | .ok () => (f2, .ok ())
    else (f2, .ok ())

/-- Modelled from the spec: `inspect.signature(downstream_task.run)` and
`bind_partial(**edge_keys)` live outside `src/`; per the spec the check is
that the accumulated edge keys "can be bound against `downstream`'s declared
call signature" — every key must name a declared parameter unless the
signature declares a variable-keyword parameter. -/
def bindOk (t : Task) (keys : List String) : Bool :=
  t.hasVarKeyword || keys.all (fun k => k ∈ t.runParams)

/-- Modelled from the spec: a `TaskResult` wrapper (from
`prefect/core/task_result.py`, outside `src/`) binds a task to the flow it
originated from; `add_edge`/`set_dependencies` resolve it to its `.task`. -/
structure TaskResult where
  task : Task
  flow : Flow
deriving DecidableEq, Repr

/-- An argument that is either a plain `Task` or a `TaskResult` wrapper
(`isinstance` dispatch in the source). -/
inductive TaskLike where
  | task (t : Task)
  | result (tr : TaskResult)
deriving DecidableEq, Repr

def TaskLike.resolve : TaskLike → Task
  | .task t => t
  | .result tr => tr.task

/-- Modelled from the spec: `as_task_result` (outside `src/`) normalizes a
heterogeneous input to a `TaskResult`; a bare task gets a fresh, empty
originating flow (named `"Flow"`, the class-name default of the constructor). -/
def asTaskResult : TaskLike → TaskResult
  | .task t => ⟨t, ⟨"Flow", none, [], []⟩⟩
  | .result tr => tr

/-- Body of `Flow.add_edge` inside the `restore_graph_on_error` block:
auto-insert missing endpoints through `add_task`, add the edge, and when `key
is not None` re-read the downstream's incoming edges and bind-check their
non-null keys. -/
def addEdgeInner (up down : Task) (key : Option String) (f0 : Flow) :
    Flow × Except Err Unit :=
  match (if up ∈ f0.tasks then (f0, Except.ok ()) else addTask f0 up) with
  | (f1, .error e) => (f1, .error e)
  | (f1, .ok ()) =>
    match (if down ∈ f1.tasks then (f1, Except.ok ()) else addTask f1 down) with
    | (f2, .error e) => (f2, .error e)
    | (f2, .ok ()) =>
      let f3 : Flow := { f2 with edges := listAdd f2.edges ⟨up, down, key⟩ }
      match key with
      | none => (f3, .ok ())
      | some _ =>
        match edgesTo f3 down with
        | none => (f3, .error .keyError)
        | some es =>
          if bindOk down (es.filterMap Edge.key) then (f3, .ok ())
          else (f3, .error .signatureBind)

/-- `Flow.add_edge`: resolve `TaskResult` wrappers, reject a `Parameter`
downstream, run the duplicate-key check when `key` is truthy (a dict lookup
that raises `KeyError` when the downstream task is not yet in the task set),
then run the body under the rollback protocol. -/
def addEdge (f : Flow) (up0 down0 : TaskLike) (key : Option String) (validate : Bool) :
    Flow × Except Err Unit :=
  let up := up0.resolve
  let down := down0.resolve
  if down.isParameter then (f, .error .invalidDependency)
  else if pyTruthy key then
    match edgesTo f down with
    | none => (f, .error .keyError)
    | some es =>
      if key ∈ es.map Edge.key then (f, .error .duplicateKey)
      else withRestore f validate (addEdgeInner up down key)
  else withRestore f validate (addEdgeInner up down key)

/-- Sequential composition of a mutating step over a list, stopping at (and
propagating) the first exception together with the state at the raise point. -/
def foldE {α : Type} (step : Flow → α → Flow × Except Err Unit) :
    Flow → List α → Flow × Except Err Unit
  | f, [] => (f, .ok ())
  | f, a :: rest =>
    match step f a with
    | (f1, .ok ()) => foldE step f1 rest
    | (f1, .error e) => (f1, .error e)

/-- `Flow.update`: union another flow's tasks and edges into this one (inner
`add_edge` calls run with `validate=False`), under the rollback protocol. -/
def flowUpdate (self other : Flow) (validate : Bool) : Flow × Except Err Unit :=
  withRestore self validate (fun f0 =>
    match foldE (fun g t => if t ∈ g.tasks then (g, .ok ()) else addTask g t) f0 other.tasks with
    | (f1, .error e) => (f1, .error e)
    | (f1, .ok ()) =>
      foldE (fun g e =>
        if e ∈ g.edges then (g, .ok ())
        else addEdge g (.task e.upstream) (.task e.downstream) e.key false) f1 other.edges)

/-- `Flow.add_task_results`: for each wrapper, add its task and merge its
originating flow, under the rollback protocol. -/
def addTaskResults (self : Flow) (trs : List TaskResult) (validate : Bool) :
    Flow × Except Err Unit :=
  withRestore self validate (fun f0 =>
    foldE (fun g tr =>
      match addTask g tr.task with
      | (g1, .ok ()) => flowUpdate g1 tr.flow false
      | (g1, .error e) => (g1, .error e)) f0 trs)

/-- `Flow.set_dependencies`: normalize the task, reject variable-positional
signatures, merge every dependency's originating flow and wire one edge per
upstream / downstream / keyword dependency (the returned `TaskResult` handle
carries no graph state and is dropped here). -/
def setDependencies (self : Flow) (task0 : TaskLike) (ups downs : List TaskLike)
    (kw : List (String × TaskLike)) (validate : Bool) : Flow × Except Err Unit :=
  withRestore self validate (fun f0 =>
    let task := (asTaskResult task0).task
    if task.hasVarArgs then (f0, .error .varArgs)
    else
      match addTaskResults f0 [asTaskResult task0] true with
      | (f1, .error e) => (f1, .error e)
      | (f1, .ok ()) =>
        match foldE (fun g t0 =>
            match addTaskResults g [asTaskResult t0] true with
            | (g1, .ok ()) => addEdge g1 (.result (asTaskResult t0)) (.task task) none false
            | (g1, .error e) => (g1, .error e)) f1 ups with
        | (f2, .error e) => (f2, .error e)
        | (f2, .ok ()) =>
          match foldE (fun g t0 =>
              match addTaskResults g [asTaskResult t0] true with
              | (g1, .ok ()) => addEdge g1 (.task task) (.result (asTaskResult t0)) none false
              | (g1, .error e) => (g1, .error e)) f2 downs with
          | (f3, .error e) => (f3, .error e)
          | (f3, .ok ()) =>
            foldE (fun g kt =>
              match addTaskResults g [asTaskResult kt.2] true with
              | (g1, .ok ()) => addEdge g1 (.result (asTaskResult kt.2)) (.task task) (some kt.1) false
              | (g1, .error e) => (g1, .error e)) f3 kw)

/-- The four validating mutation entry points of the Graph Builder, as data. -/
inductive MutOp where
  | edgeOp (up down : TaskLike) (key : Option String)
  | updateOp (other : Flow)
  | resultsOp (trs : List TaskResult)
  | depsOp (t : TaskLike) (ups downs : List TaskLike) (kw : List (String × TaskLike))

def applyOp (f : Flow) (op : MutOp) (validate : Bool) : Flow × Except Err Unit :=
  match op with
  | .edgeOp up down key => addEdge f up down key validate
  | .updateOp other => flowUpdate f other validate
  | .resultsOp trs => addTaskResults f trs validate
  | .depsOp t ups downs kw => setDependencies f t ups downs kw validate

/-- Flow states reachable through the public mutation API.  A pre-populated
constructor call factors through `addTask`/`addEdge` on the empty flow, so the
base case is the empty flow. -/
inductive Reaches : Flow → Prop where
  | base (n : String) (v : Option String) : Reaches ⟨n, v, [], []⟩
  | taskStep {f : Flow} (t : Task) : Reaches f → Reaches (addTask f t).1
  | opStep {f : Flow} (op : MutOp) (validate : Bool) : Reaches f → Reaches (applyOp f op validate).1

/-- Inputs fed to `get_hash` (MD5 over a canonical serialization) by the
fingerprint engine.  The digest function itself is abstracted as a parameter
`H : HIn → Nat`: every theorem below holds for an arbitrary `H`, which in
particular covers real MD5.  The constructors record the five syntactically
distinct argument shapes in the source: a plain string, a re-hash of an
existing digest (`get_hash(hashes[t])`), a task's identity payload, the tuple
`(hashes[t], edge_hashes)` of forward pass #1, and the string-of-tuple form
`str((hashes[t], edge_hashes))` of the backward and final forward passes. -/
inductive HIn where
  | str (s : String)
  | raw (h : Nat)
  | taskInfo (payload : Nat)
  | tupleF (h : Nat) (ehs : List (Option String × Nat))
  | tupleS (h : Nat) (ehs : List (Option String × Nat))
deriving DecidableEq, Repr

/-- `Flow.generate_flow_id`: the digest of `"<name>:<version-or-empty>"`
(the UUID-string round trip `str(uuid.UUID(bytes=h))` is injective on
16-byte digests and is absorbed into the abstract digest value). -/
def generateFlowId (H : HIn → Nat) (f : Flow) : Nat :=
  H (.str (f.name ++ ":" ++ f.version.getD ""))

/-- Comparison used by `sorted` on `(key, digest)` tuples when all keys have
the same type (pairs of equal keys fall through to the byte comparison of the
digests; the mixed case never reaches a comparison, see `pySortPairs`). -/
def pairLE : (Option String × Nat) → (Option String × Nat) → Bool
  | (none, a), (none, b) => a ≤ b
  | (none, _), (some _, _) => true
  | (some _, _), (none, _) => true
  | (some s, a), (some u, b) => if s = u then a ≤ b else decide (s < u)

def insertLE {α : Type} (le : α → α → Bool) (a : α) : List α → List α
  | [] => [a]
  | b :: l => if le a b then a :: b :: l else b :: insertLE le a l

def sortLE {α : Type} (le : α → α → Bool) : List α → List α
  | [] => []
  | a :: l => insertLE le a (sortLE le l)

/-- `sorted((e.key, hashes[...]) for e in ...)` in Python 3: tuples are
compared lexicographically, and comparing a `None` first component with a
`str` one raises `TypeError` (`'<' not supported between instances of
'NoneType' and 'str'`).  Whenever the list holds both a `None`-keyed and a
`str`-keyed pair, the sort must compare two such tuples and raises; a list
with uniformly typed keys sorts under the total order `pairLE`.  (The exact
resulting order only feeds the digest function and matters to no claim.) -/
def pySortPairs (l : List (Option String × Nat)) : Except Err (List (Option String × Nat)) :=
  if (l.any (fun p => p.1.isNone)) && (l.any (fun p => p.1.isSome)) then .error .typeError
  else .ok (sortLE pairLE l)

/-- Mutable state of `generate_task_ids`: the `hashes` dict (total function;
only tasks of the flow are ever read or written), the `counter` multiset
(`Counter` with default 0), and the `final_hashes` dict as an insertion-ordered
association list. -/
structure FpState where
  hashes : Task → Nat
  counter : Nat → Nat
  final : List (Task × Nat)

/-- `counter[h] += 1`. -/
def bump (c : Nat → Nat) (h : Nat) : Nat → Nat := fun x => if x = h then c x + 1 else c x

/-- `hashes[t] = v`. -/
def setF (hs : Task → Nat) (t : Task) (v : Nat) : Task → Nat := fun u => if u = t then v else hs u

/-- `final_hashes[t] = v` on a Python dict: an overwrite keeps the key's
original insertion position. -/
def upsert : List (Task × Nat) → Task → Nat → List (Task × Nat)
  | [], t, v => [(t, v)]
  | (k, w) :: rest, t, v =>
    if k = t then (k, v) :: rest else (k, w) :: upsert rest t v

/-- Forward pass #1 body: finalize a unique hash, otherwise fold the sorted
incoming-edge hashes into the task hash via the tuple form
`get_hash((hashes[t], edge_hashes))` and count the new value. -/
def fwd1Step (H : HIn → Nat) (f : Flow) (st : FpState) (t : Task) : Except Err FpState :=
  if st.counter (st.hashes t) = 1 then
    .ok { st with final := upsert st.final t (st.hashes t) }
  else
    match pySortPairs ((edgesToList f t).map (fun e => (e.key, st.hashes e.upstream))) with
    | .error e => .error e
    | .ok ehs =>
      .ok { hashes := setF st.hashes t (H (.tupleF (st.hashes t) ehs))
            counter := bump st.counter (H (.tupleF (st.hashes t) ehs))
            final := st.final }

/-- Backward pass body: like `fwd1Step` but over outgoing edges, hashing the
downstream endpoints, via the string form `get_hash(str((...)))`. -/
def bwdStep (H : HIn → Nat) (f : Flow) (st : FpState) (t : Task) : Except Err FpState :=
  if st.counter (st.hashes t) = 1 then
    .ok { st with final := upsert st.final t (st.hashes t) }
  else
    match pySortPairs ((edgesFromList f t).map (fun e => (e.key, st.hashes e.downstream))) with
    | .error e => .error e
    | .ok ehs =>
      .ok { hashes := setF st.hashes t (H (.tupleS (st.hashes t) ehs))
            counter := bump st.counter (H (.tupleS (st.hashes t) ehs))
            final := st.final }

/-- The `while counter[hashes[t]] > 1:` loop of forward pass #2: re-hash the
task's own digest until the running count of the value is 1.  With an
adversarial digest function the Python loop need not terminate; the fuel
bounds the iterations and `Err.fuelExhausted` marks the cut-off. -/
def rehashLoop (H : HIn → Nat) (t : Task) :
    Nat → (Task → Nat) → (Nat → Nat) → Except Err ((Task → Nat) × (Nat → Nat))
  | fuel, hs, c =>
    if c (hs t) > 1 then
      match fuel with
      | 0 => .error .fuelExhausted
      | fuel2 + 1 =>
        rehashLoop H t fuel2 (setF hs t (H (.raw (hs t)))) (bump c (H (.raw (hs t))))
    else .ok (hs, c)

/-- Forward pass #2 body: as `fwd1Step` but with the string-of-tuple digest
form, followed by the forced re-hash-until-unique loop, and a finalization of
the surviving value in both branches. -/
def fwd2Step (H : HIn → Nat) (fuel : Nat) (f : Flow) (st : FpState) (t : Task) :
    Except Err FpState :=
  if st.counter (st.hashes t) = 1 then
    .ok { st with final := upsert st.final t (st.hashes t) }
  else
    match pySortPairs ((edgesToList f t).map (fun e => (e.key, st.hashes e.upstream))) with
    | .error e => .error e
    | .ok ehs =>
      match rehashLoop H t fuel
          (setF st.hashes t (H (.tupleS (st.hashes t) ehs)))
          (bump st.counter (H (.tupleS (st.hashes t) ehs))) with
      | .error e => .error e
      | .ok (hs2, c2) => .ok { hashes := hs2, counter := c2, final := upsert st.final t (hs2 t) }

/-- Run one pass body over a task order, propagating the first exception. -/
def runPass (step : FpState → Task → Except Err FpState) :
    FpState → List Task → Except Err FpState
  | st, [] => .ok st
  | st, t :: ts =>
    match step st t with
    | .error e => .error e
    | .ok st2 => runPass step st2 ts

/-- `get_hash(t)` for a task: digest of its identity payload. -/
def baseHash (H : HIn → Nat) (t : Task) : Nat := H (.taskInfo t.payload)

/-- `Flow.generate_task_ids`: initial hashes and counter, forward pass #1
over `sorted_tasks()`, backward pass over its reverse, forward pass #2 with
forced disambiguation, then XOR of every final hash with the flow-id seed
(`uuid.UUID(generate_flow_id()).bytes` is the flow-id digest itself; the
byte-wise XOR of two 16-byte values is modelled by `Nat.xor`, which is
likewise injective in its second argument for a fixed seed). -/
def generateTaskIds (H : HIn → Nat) (fuel : Nat) (f : Flow) :
    Except Err (List (Task × Nat)) :=
  match sortedTasks f with
  | .error e => .error e
  | .ok order =>
    match runPass (fwd1Step H f)
        { hashes := fun t => baseHash H t
          counter := fun h => (f.tasks.map (baseHash H)).count h
          final := [] } order with
    | .error e => .error e
    | .ok st1 =>
      match runPass (bwdStep H f) st1 order.reverse with
      | .error e => .error e
      | .ok st2 =>
        match runPass (fwd2Step H fuel f) st2 order with
        | .error e => .error e
        | .ok st3 =>
          .ok (st3.final.map (fun p => (p.1, Nat.xor (generateFlowId H f) p.2)))

/-- A plain sample task: empty slug, not a `Parameter`, a `run` signature that
accepts arbitrary keyword arguments. -/
def mkTask (oid payload : Nat) : Task :=
  { oid := oid, slug := "", payload := payload, isParameter := false,
    runParams := [], hasVarKeyword := true, hasVarArgs := false }

def tX : Task := mkTask 0 0

def tY : Task := mkTask 1 1

/-- Two distinct tasks with byte-identical attribute payloads. -/
def tD1 : Task := mkTask 2 5

def tD2 : Task := mkTask 3 5

/-- A `Parameter` task. -/
def tP : Task := { mkTask 4 4 with isParameter := true }

/-- A task whose `run` signature declares exactly one keyword `x` and no
variable-keyword catch-all. -/
def tSig : Task := { mkTask 8 8 with runParams := ["x"], hasVarKeyword := false }

/-- A task expecting the keyword `k`. -/
def tK : Task := { mkTask 7 7 with runParams := ["k"], hasVarKeyword := false }

def tSlugA : Task := { mkTask 10 10 with slug := "a" }

def tSlugB : Task := { mkTask 11 11 with slug := "a" }

/-- The empty flow. -/
def f0 : Flow := ⟨"e", none, [], []⟩

/-- A flow already containing `tX` and `tSig`, with no edges. -/
def f1 : Flow := ⟨"g", none, [tX, tSig], []⟩

/-- Acyclic flow exercising the mixed-key crash of `generate_task_ids`:
`tD1`/`tD2` share one attribute payload (equal base hashes), and `tD1` has one
unkeyed and one keyed incoming edge. -/
def bugFlow : Flow :=
  ⟨"f", none, [tX, tY, tD1, tD2], [⟨tX, tD1, none⟩, ⟨tY, tD1, some "k"⟩]⟩

/-- A three-task cycle `A → B → C → A`. -/
def cycFlow : Flow :=
  ⟨"c", none, [tX, tY, tD1], [⟨tX, tY, none⟩, ⟨tY, tD1, none⟩, ⟨tD1, tX, none⟩]⟩

/-- A two-task flow consisting of two pure duplicates (equal payloads, no
edges). -/
def dupFlow : Flow := ⟨"d", none, [tD1, tD2], []⟩

/-- A sample digest function for concrete evaluations: it maps a task-info
input to its payload (so equal payloads collide, as with real MD5 over equal
bytes) and everything else to 0.  The claims' theorems hold for every digest
function, so any concrete choice is admissible for witnesses. -/
def demoH : HIn → Nat
  | .taskInfo p => p
  | _ => 0

/-- A two-task chain `tX → tY`. -/
def chainFlow : Flow := ⟨"w", none, [tX, tY], [⟨tX, tY, none⟩]⟩

/-- A second sample digest function with distinguishable (but still
collision-prone) ranges per input shape, for tracing the re-hash loop. -/
def demoH3 : HIn → Nat
  | .str _ => 1
  | .raw h => 300 + h
  | .taskInfo p => p
  | .tupleF h _ => 100 + h
  | .tupleS h _ => 200 + h

/-- The defining property of a (partial) topological order: every task of the
emitted list has all of its in-set upstream tasks emitted strictly earlier. -/
def SortedOK (ups : Task → List Task) (allT sorted : List Task) : Prop :=
  ∀ pre t post, sorted = pre ++ t :: post → ∀ u ∈ ups t, u ∈ allT → u ∈ pre

/-- One edge step of the flow graph, restricted to the working task set (the
restriction matters only for flows whose edge endpoints escape the task set,
which the mutation API never produces). -/
def edgeRelR (f : Flow) (a b : Task) : Prop :=
  a ∈ f.tasks ∧ b ∈ f.tasks ∧ ∃ e ∈ f.edges, e.upstream = a ∧ e.downstream = b

/-- The edge set restricted to the task set contains a directed cycle. -/
def HasCycle (f : Flow) : Prop := ∃ t, Relation.TransGen (edgeRelR f) t t

/-- No edge of the flow has a `Parameter` task as its downstream endpoint. -/
def NoParamDown (f : Flow) : Prop := ∀ e ∈ f.edges, e.downstream.isParameter = false

/-- Counter soundness invariant of `generate_task_ids`: for every digest
value, the number of tasks currently carrying it is bounded by its running
count (the counter records every assignment ever made and never decreases). -/
def CntOk (allT : List Task) (hs : Task → Nat) (c : Nat → Nat) : Prop :=
  ∀ h, allT.countP (fun u => hs u == h) ≤ c h

/-- The current hashes are pairwise distinct across the given tasks. -/
def HashInj (ts : List Task) (hs : Task → Nat) : Prop :=
  ∀ t1 ∈ ts, ∀ t2 ∈ ts, t1 ≠ t2 → hs t1 ≠ hs t2

/- ===================================================================== -/
/- Theorems: topological sorting (Topology Engine).                      -/
/- ===================================================================== -/

theorem scanPass_len_le (ups : Task → List Task) (snap : List Task) :
    ∀ rem sorted b, (scanPass ups snap rem sorted b).1.length ≤ rem.length := by
  induction snap with
  | nil => intro rem sorted b; simp [scanPass]
  | cons t snap ih =>
    intro rem sorted b
    by_cases h : (ups t).all (fun u => !(decide (u ∈ rem))) = true
    · simp only [scanPass, h, if_true]
      exact le_trans (ih _ _ _) ((rem.erase_sublist t).length_le)
    · simp only [scanPass, h, if_false]
      exact ih _ _ _

theorem scanPass_flag_true (ups : Task → List Task) (snap : List Task) :
    ∀ rem sorted, (scanPass ups snap rem sorted true).2.2 = true := by
  induction snap with
  | nil => intro rem sorted; simp [scanPass]
  | cons t snap ih =>
    intro rem sorted
    by_cases h : (ups t).all (fun u => !(decide (u ∈ rem))) = true
    · simp only [scanPass, h, if_true]; exact ih _ _
    · simp only [scanPass, h, if_false]; exact ih _ _

theorem scanPass_result_sub (ups : Task → List Task) (snap : List Task) :
    ∀ rem sorted b x, x ∈ (scanPass ups snap rem sorted b).1 → x ∈ rem := by
  induction snap with
  | nil => intro rem sorted b x hx; simpa [scanPass] using hx
  | cons t snap ih =>
    intro rem sorted b x hx
    by_cases h : (ups t).all (fun u => !(decide (u ∈ rem))) = true
    · simp only [scanPass, h, if_true] at hx
      exact (rem.erase_sublist t).subset (ih _ _ _ _ hx)
    · simp only [scanPass, h, if_false] at hx
      exact ih _ _ _ _ hx

theorem scanPass_stuck (ups : Task → List Task) (snap : List Task) :
    ∀ rem sorted, (∀ x ∈ snap, x ∈ rem) →
      (scanPass ups snap rem sorted false).2.2 = false →
      (scanPass ups snap rem sorted false).1 = rem ∧
      ∀ t ∈ snap, ∃ u ∈ ups t, u ∈ rem := by
  induction snap with
  | nil => intro rem sorted _ _; exact ⟨rfl, by simp⟩
  | cons t snap ih =>
    intro rem sorted hsub hflag
    by_cases h : (ups t).all (fun u => !(decide (u ∈ rem))) = true
    · exfalso
      simp only [scanPass, h, if_true] at hflag
      rw [scanPass_flag_true] at hflag
      simp at hflag
    · simp only [scanPass, h, if_false] at hflag ⊢
      obtain ⟨hrem, hrest⟩ := ih rem sorted (fun x hx => hsub x (List.mem_cons_of_mem _ hx)) hflag
      refine ⟨hrem, ?_⟩
      intro t2 ht2
      rcases List.mem_cons.mp ht2 with rfl | ht2
      · rw [List.all_eq_true] at h
        push_neg at h
        obtain ⟨u, hu, hcontra⟩ := h
        refine ⟨u, hu, ?_⟩
        simpa using hcontra
      · exact hrest t2 ht2

theorem scanPass_closed (ups : Task → List Task) (C : Task → Prop)
    (hC : ∀ x, C x → ∃ u, C u ∧ u ∈ ups x) (snap : List Task) :
    ∀ rem sorted b, (∀ x, C x → x ∈ rem) →
      ∀ x, C x → x ∈ (scanPass ups snap rem sorted b).1 := by
  induction snap with
  | nil => intro rem sorted b hsub x hx; simpa [scanPass] using hsub x hx
  | cons t snap ih =>
    intro rem sorted b hsub x hx
    by_cases h : (ups t).all (fun u => !(decide (u ∈ rem))) = true
    · have htC : ¬ C t := by
        intro hCt
        obtain ⟨u, hCu, hu⟩ := hC t hCt
        have hrem := hsub u hCu
        rw [List.all_eq_true] at h
        have := h u hu
        simp [hrem] at this
      simp only [scanPass, h, if_true]
      refine ih _ _ _ ?_ x hx
      intro y hy
      have hyne : y ≠ t := fun heq => htC (heq ▸ hy)
      exact (List.mem_erase_of_ne hyne).2 (hsub y hy)
    · simp only [scanPass, h, if_false]
      exact ih _ _ _ hsub x hx

theorem sortedOK_append {ups : Task → List Task} {allT sorted : List Task} {t : Task}
    (h : SortedOK ups allT sorted) (ht : ∀ u ∈ ups t, u ∈ allT → u ∈ sorted) :
    SortedOK ups allT (sorted ++ [t]) := by
  intro pre t2 post heq u hu huT
  rcases List.append_eq_append_iff.mp heq with ⟨k, hk1, hk2⟩ | ⟨k, hk1, hk2⟩
  · cases k with
    | nil =>
      simp only [List.nil_append] at hk2
      obtain ⟨h1, h2⟩ := List.cons_eq_cons.mp hk2
      subst h1
      simp only [List.append_nil] at hk1
      subst hk1
      exact ht u hu huT
    | cons a k2 =>
      have hlen := congrArg List.length hk2
      simp at hlen
  · cases k with
    | nil =>
      simp only [List.nil_append] at hk2
      obtain ⟨h1, h2⟩ := List.cons_eq_cons.mp hk2
      subst h1
      simp only [List.append_nil] at hk1
      subst hk1
      exact ht u hu huT
    | cons a k2 =>
      simp only [List.cons_append] at hk2
      obtain ⟨h1, h2⟩ := List.cons_eq_cons.mp hk2
      subst h1
      subst h2
      exact h pre t2 k2 hk1 u hu huT

theorem scanPass_perm_sorted (ups : Task → List Task) (allT : List Task) (snap : List Task) :
    ∀ rem sorted b,
      List.Perm (sorted ++ rem) allT →
      (∀ x ∈ snap, x ∈ rem) → snap.Nodup →
      SortedOK ups allT sorted →
      List.Perm ((scanPass ups snap rem sorted b).2.1 ++ (scanPass ups snap rem sorted b).1) allT ∧
      SortedOK ups allT (scanPass ups snap rem sorted b).2.1 := by
  induction snap with
  | nil =>
    intro rem sorted b hperm _ _ hok
    exact ⟨by simpa [scanPass] using hperm, by simpa [scanPass] using hok⟩
  | cons t snap ih =>
    intro rem sorted b hperm hsub hnd hok
    have hndtail : snap.Nodup := (List.nodup_cons.mp hnd).2
    have htns : t ∉ snap := (List.nodup_cons.mp hnd).1
    by_cases h : (ups t).all (fun u => !(decide (u ∈ rem))) = true
    · simp only [scanPass, h, if_true]
      have ht : t ∈ rem := hsub t (by simp)
      have hperm2 : List.Perm ((sorted ++ [t]) ++ rem.erase t) allT := by
        rw [List.append_assoc]
        exact (List.Perm.append_left sorted (List.perm_cons_erase ht).symm).trans hperm
      have hok2 : SortedOK ups allT (sorted ++ [t]) := by
        refine sortedOK_append hok ?_
        intro u hu huT
        rw [List.all_eq_true] at h
        have hnotrem : u ∉ rem := by simpa using h u hu
        rcases List.mem_append.mp (hperm.mem_iff.2 huT) with hs | hr
        · exact hs
        · exact absurd hr hnotrem
      refine ih (rem.erase t) (sorted ++ [t]) true hperm2 ?_ hndtail hok2
      intro x hx
      have hxne : x ≠ t := fun heq => htns (heq ▸ hx)
      exact (List.mem_erase_of_ne hxne).2 (hsub x (List.mem_cons_of_mem _ hx))
    · simp only [scanPass, h, if_false]
      exact ih rem sorted b hperm (fun x hx => hsub x (List.mem_cons_of_mem _ hx)) hndtail hok

theorem scanPass_sublist (ups : Task → List Task) (snap : List Task) :
    ∀ rem sorted b, (scanPass ups snap rem sorted b).1.Sublist rem := by
  induction snap with
  | nil => intro rem sorted b; simp [scanPass]
  | cons t snap ih =>
    intro rem sorted b
    by_cases h : (ups t).all (fun u => !(decide (u ∈ rem))) = true
    · simp only [scanPass, h, if_true]
      exact (ih _ _ _).trans (rem.erase_sublist t)
    · simp only [scanPass, h, if_false]
      exact ih _ _ _

theorem sortedOK_nil (ups : Task → List Task) (allT : List Task) : SortedOK ups allT [] := by
  intro pre t post heq u hu huT
  have := congrArg List.length heq
  simp at this
  omega

theorem scanPass_emitted_lt (ups : Task → List Task) (snap : List Task) :
    ∀ rem sorted, (∀ x ∈ snap, x ∈ rem) →
      (scanPass ups snap rem sorted false).2.2 = true →
      (scanPass ups snap rem sorted false).1.length < rem.length := by
  induction snap with
  | nil => intro rem sorted _ hflag; simp [scanPass] at hflag
  | cons t snap ih =>
    intro rem sorted hsub hflag
    by_cases h : (ups t).all (fun u => !(decide (u ∈ rem))) = true
    · have ht : t ∈ rem := hsub t (by simp)
      have h2 : (rem.erase t).length < rem.length := by
        rw [List.length_erase_of_mem ht]
        exact Nat.sub_lt (List.length_pos.mpr (List.ne_nil_of_mem ht)) Nat.one_pos
      simp only [scanPass, h, if_true]
      exact lt_of_le_of_lt (scanPass_len_le ups snap _ _ _) h2
    · simp only [scanPass, h, if_false] at hflag ⊢
      exact ih rem sorted (fun x hx => hsub x (by simp [hx])) hflag

theorem sortLoop_ok (ups : Task → List Task) (allT : List Task) :
    ∀ fuel rem sorted order, rem.length ≤ fuel →
      List.Perm (sorted ++ rem) allT → rem.Nodup → SortedOK ups allT sorted →
      sortLoop ups fuel rem sorted = .ok order →
      List.Perm order allT ∧ SortedOK ups allT order := by
  intro fuel
  induction fuel with
  | zero =>
    intro rem sorted order hlen hperm hnd hok heq
    have hre : rem = [] := List.length_eq_zero.mp (Nat.le_zero.mp hlen)
    subst hre
    simp only [sortLoop, Except.ok.injEq] at heq
    subst heq
    exact ⟨by simpa using hperm, hok⟩
  | succ n ihn =>
    intro rem sorted order hlen hperm hnd hok heq
    cases rem with
    | nil =>
      simp only [sortLoop, Except.ok.injEq] at heq
      subst heq
      exact ⟨by simpa using hperm, hok⟩
    | cons a l =>
      by_cases hb : (scanPass ups (a :: l) (a :: l) sorted false).2.2 = true
      · rw [sortLoop, if_pos hb] at heq
        have hlt := scanPass_emitted_lt ups (a :: l) (a :: l) sorted (fun x hx => hx) hb
        obtain ⟨hperm2, hok2⟩ :=
          scanPass_perm_sorted ups allT (a :: l) (a :: l) sorted false hperm (fun x hx => hx) hnd hok
        have hnd2 : (scanPass ups (a :: l) (a :: l) sorted false).1.Nodup :=
          (scanPass_sublist ups (a :: l) (a :: l) sorted false).nodup hnd
        refine ihn _ _ order ?_ hperm2 hnd2 hok2 heq
        have : (a :: l).length ≤ n + 1 := hlen
        omega
      · rw [sortLoop, if_neg hb] at heq
        exact absurd heq (by simp)

theorem sortLoop_err (ups : Task → List Task) :
    ∀ fuel rem sorted e, rem.length ≤ fuel →
      sortLoop ups fuel rem sorted = .error e →
      e = .cyclicGraph ∧
      ∃ S : List Task, S ≠ [] ∧ (∀ x ∈ S, x ∈ rem) ∧ (∀ t ∈ S, ∃ u ∈ ups t, u ∈ S) := by
  intro fuel
  induction fuel with
  | zero =>
    intro rem sorted e hlen heq
    have hre : rem = [] := List.length_eq_zero.mp (Nat.le_zero.mp hlen)
    subst hre
    simp [sortLoop] at heq
  | succ n ihn =>
    intro rem sorted e hlen heq
    cases rem with
    | nil => simp [sortLoop] at heq
    | cons a l =>
      by_cases hb : (scanPass ups (a :: l) (a :: l) sorted false).2.2 = true
      · rw [sortLoop, if_pos hb] at heq
        have hlt := scanPass_emitted_lt ups (a :: l) (a :: l) sorted (fun x hx => hx) hb
        have hlen2 : (scanPass ups (a :: l) (a :: l) sorted false).1.length ≤ n := by
          have : (a :: l).length ≤ n + 1 := hlen
          omega
        obtain ⟨hval, S, hne, hsub, hstep⟩ := ihn _ _ e hlen2 heq
        refine ⟨hval, S, hne, ?_, hstep⟩
        intro x hx
        exact scanPass_result_sub ups (a :: l) (a :: l) sorted false x (hsub x hx)
      · rw [sortLoop, if_neg hb] at heq
        have hflag : (scanPass ups (a :: l) (a :: l) sorted false).2.2 = false := by
          simpa using hb
        obtain ⟨-, hstuck⟩ := scanPass_stuck ups (a :: l) (a :: l) sorted (fun x hx => hx) hflag
        have hval : e = Err.cyclicGraph := by
          simp only [Except.error.injEq] at heq
          exact heq.symm
        exact ⟨hval, a :: l, by simp, fun x hx => hx, hstuck⟩

theorem stuck_set_cycle (R : Task → Task → Prop) (S : List Task) (hne : S ≠ [])
    (hstep : ∀ t ∈ S, ∃ u ∈ S, R u t) :
    ∃ t, Relation.TransGen R t t := by
  classical
  obtain ⟨t0, ht0⟩ := List.exists_mem_of_ne_nil S hne
  have hstep2 : ∀ t, ∃ u, t ∈ S → u ∈ S ∧ R u t := by
    intro t
    by_cases ht : t ∈ S
    · obtain ⟨u, hu, hr⟩ := hstep t ht
      exact ⟨u, fun _ => ⟨hu, hr⟩⟩
    · exact ⟨t0, fun h => absurd h ht⟩
  choose g hg using hstep2
  have hFmem : ∀ n, g^[n] t0 ∈ S := by
    intro n
    induction n with
    | zero => simpa using ht0
    | succ n ihn =>
      rw [Function.iterate_succ_apply']
      exact (hg _ ihn).1
  have hchain : ∀ i d, Relation.TransGen R (g^[i + d + 1] t0) (g^[i] t0) := by
    intro i d
    induction d with
    | zero =>
      simp only [Nat.add_zero]
      rw [Function.iterate_succ_apply']
      exact Relation.TransGen.single (hg _ (hFmem i)).2
    | succ d ihd =>
      have hstep3 : R (g^[i + d + 1 + 1] t0) (g^[i + d + 1] t0) := by
        rw [Function.iterate_succ_apply']
        exact (hg _ (hFmem _)).2
      have harith : i + (d + 1) + 1 = i + d + 1 + 1 := by omega
      rw [harith]
      exact Relation.TransGen.head hstep3 ihd
  have hpos : 0 < S.length := List.length_pos.mpr hne
  obtain ⟨a, b, hab, habeq⟩ := Fintype.exists_ne_map_eq_of_card_lt
    (fun k : Fin (S.length + 1) =>
      (⟨S.indexOf (g^[k.val] t0), List.indexOf_lt_length.2 (hFmem k.val)⟩ : Fin S.length))
    (by simp)
  have hidx : S.indexOf (g^[a.val] t0) = S.indexOf (g^[b.val] t0) := congrArg Fin.val habeq
  have hFeq : g^[a.val] t0 = g^[b.val] t0 := (List.indexOf_inj (hFmem _) (hFmem _)).1 hidx
  have key : ∀ i j : ℕ, i < j → g^[i] t0 = g^[j] t0 → ∃ t, Relation.TransGen R t t := by
    intro i j hij heq2
    have harith : i + (j - i - 1) + 1 = j := by omega
    have hcyc := hchain i (j - i - 1)
    rw [harith] at hcyc
    rw [← heq2] at hcyc
    exact ⟨g^[i] t0, hcyc⟩
  have hvalne : a.val ≠ b.val := fun hv => hab (Fin.ext hv)
  rcases Ne.lt_or_lt hvalne with hlt | hlt
  · exact key a.val b.val hlt hFeq
  · exact key b.val a.val hlt hFeq.symm

theorem mem_upstreamTasksOf {f : Flow} {t u : Task} :
    u ∈ upstreamTasksOf f t ↔ ∃ e ∈ f.edges, e.upstream = u ∧ e.downstream = t := by
  simp only [upstreamTasksOf, edgesToList, List.mem_map, List.mem_filter, beq_iff_eq]
  constructor
  · rintro ⟨e, ⟨he, hd⟩, hu⟩
    exact ⟨e, he, hu, hd⟩
  · rintro ⟨e, he, hu, hd⟩
    exact ⟨e, ⟨he, hd⟩, hu⟩

theorem sortedTasks_err_hasCycle (f : Flow) (e : Err) (h : sortedTasks f = .error e) :
    HasCycle f := by
  obtain ⟨-, S, hne, hsub, hstep⟩ :=
    sortLoop_err (upstreamTasksOf f) f.tasks.length f.tasks [] e le_rfl h
  refine stuck_set_cycle (edgeRelR f) S hne ?_
  intro t ht
  obtain ⟨u, hu, huS⟩ := hstep t ht
  obtain ⟨e2, he2, hup, hdown⟩ := mem_upstreamTasksOf.1 hu
  exact ⟨u, huS, hsub u huS, hsub t ht, e2, he2, hup, hdown⟩

theorem hasCycle_closed (f : Flow) (h : HasCycle f) :
    ∃ C : Task → Prop, (∃ t, C t) ∧ (∀ x, C x → x ∈ f.tasks) ∧
      (∀ x, C x → ∃ u, C u ∧ u ∈ upstreamTasksOf f x) := by
  obtain ⟨t, ht⟩ := h
  refine ⟨fun x => Relation.TransGen (edgeRelR f) t x ∧ Relation.TransGen (edgeRelR f) x t,
    ⟨t, ht, ht⟩, ?_, ?_⟩
  · rintro x ⟨-, h2⟩
    obtain ⟨y, hxy, -⟩ := (Relation.TransGen.head'_iff).1 h2
    exact hxy.1
  · rintro x ⟨h1, h2⟩
    obtain ⟨y, hty, hyx⟩ := (Relation.TransGen.tail'_iff).1 h1
    have hyt : Relation.TransGen (edgeRelR f) y t := Relation.TransGen.head hyx h2
    have hty2 : Relation.TransGen (edgeRelR f) t y := by
      rcases Relation.reflTransGen_iff_eq_or_transGen.1 hty with heq | htg
      · rw [heq]
        exact ht
      · exact htg
    refine ⟨y, ⟨hty2, hyt⟩, ?_⟩
    obtain ⟨hymem, hxmem, e2, hemem, hup, hdown⟩ := hyx
    exact mem_upstreamTasksOf.2 ⟨e2, hemem, hup, hdown⟩

theorem sortLoop_closed_err (ups : Task → List Task) (C : Task → Prop)
    (hC : ∀ x, C x → ∃ u, C u ∧ u ∈ ups x) (t0 : Task) (ht0 : C t0) :
    ∀ fuel rem sorted, rem.length ≤ fuel → (∀ x, C x → x ∈ rem) →
      sortLoop ups fuel rem sorted = .error .cyclicGraph := by
  intro fuel
  induction fuel with
  | zero =>
    intro rem sorted hlen hsub
    have hre : rem = [] := List.length_eq_zero.mp (Nat.le_zero.mp hlen)
    subst hre
    exact absurd (hsub t0 ht0) (List.not_mem_nil t0)
  | succ n ihn =>
    intro rem sorted hlen hsub
    cases rem with
    | nil => exact absurd (hsub t0 ht0) (List.not_mem_nil t0)
    | cons a l =>
      by_cases hb : (scanPass ups (a :: l) (a :: l) sorted false).2.2 = true
      · rw [sortLoop, if_pos hb]
        have hlt := scanPass_emitted_lt ups (a :: l) (a :: l) sorted (fun x hx => hx) hb
        apply ihn
        · have : (a :: l).length ≤ n + 1 := hlen
          omega
        · intro x hx
          exact scanPass_closed ups C hC (a :: l) (a :: l) sorted false hsub x hx
      · rw [sortLoop, if_neg hb]

theorem hasCycle_sortedTasks_err (f : Flow) (h : HasCycle f) :
    sortedTasks f = .error .cyclicGraph := by
  obtain ⟨C, ⟨t0, ht0⟩, hmem, hstep⟩ := hasCycle_closed f h
  exact sortLoop_closed_err (upstreamTasksOf f) C
    (fun x hx => (hstep x hx).imp (fun u hu => hu)) t0 ht0
    f.tasks.length f.tasks [] le_rfl hmem

theorem sortedTasks_ok_perm (f : Flow) (order : List Task) (hnd : f.tasks.Nodup)
    (h : sortedTasks f = .ok order) :
    List.Perm order f.tasks ∧ SortedOK (upstreamTasksOf f) f.tasks order :=
  sortLoop_ok (upstreamTasksOf f) f.tasks f.tasks.length f.tasks [] order le_rfl (by simp) hnd
    (sortedOK_nil _ _) h

/-- C2: for every flow on which `sorted_tasks()` succeeds, and every edge
`(u, v)` of the flow (whose endpoints belong to the task set, as every flow
built through the API satisfies), `u` appears strictly before `v` in the
returned order: the result is a valid topological order of the task set. -/
theorem claim_C2_sorted_tasks_topological (f : Flow) (e : Edge) (order : List Task)
    (hnd : f.tasks.Nodup) (he : e ∈ f.edges)
    (hu : e.upstream ∈ f.tasks) (hv : e.downstream ∈ f.tasks)
    (hok : sortedTasks f = .ok order) :
    ∃ l1 l2 l3, order = l1 ++ e.upstream :: l2 ++ e.downstream :: l3 := by
  obtain ⟨hperm, hsok⟩ := sortedTasks_ok_perm f order hnd hok
  have hvmem : e.downstream ∈ order := hperm.mem_iff.2 hv
  obtain ⟨pre, post, hdecomp⟩ := List.append_of_mem hvmem
  have hupre : e.upstream ∈ pre :=
    hsok pre e.downstream post hdecomp e.upstream
      (mem_upstreamTasksOf.2 ⟨e, he, rfl, rfl⟩) hu
  obtain ⟨l1, l2, hpre⟩ := List.append_of_mem hupre
  refine ⟨l1, l2, post, ?_⟩
  rw [hdecomp, hpre]

theorem claim_C2_witness :
    ∃ l1 l2 l3, [tX, tY] = l1 ++ tX :: l2 ++ tY :: l3 :=
  claim_C2_sorted_tasks_topological chainFlow ⟨tX, tY, none⟩ [tX, tY]
    (by decide) (by decide) (by decide) (by decide) (by rfl)

/-- C3: `sorted_tasks()` (and hence `validate()`) raises `CyclicGraphError`
exactly when the edge set restricted to the task set contains a cycle; when
the graph is acyclic every task is emitted and no error is raised. -/
theorem claim_C3_cyclic_error_iff_cycle (f : Flow) :
    sortedTasks f = .error .cyclicGraph ↔ HasCycle f :=
  ⟨sortedTasks_err_hasCycle f .cyclicGraph, hasCycle_sortedTasks_err f⟩

/- ===================================================================== -/
/- Theorems: Graph Builder (rollback, add_task, add_edge).               -/
/- ===================================================================== -/

theorem listAdd_mem {α : Type} [DecidableEq α] {l : List α} {a x : α}
    (h : x ∈ listAdd l a) : x ∈ l ∨ x = a := by
  unfold listAdd at h
  by_cases hm : a ∈ l
  · rw [if_pos hm] at h
    exact .inl h
  · rw [if_neg hm] at h
    rcases List.mem_append.mp h with h1 | h1
    · exact .inl h1
    · simp at h1
      exact .inr h1

theorem mem_listAdd_of_mem {α : Type} [DecidableEq α] {l : List α} {x : α} (a : α)
    (h : x ∈ l) : x ∈ listAdd l a := by
  unfold listAdd
  split
  · exact h
  · exact List.mem_append_left _ h

theorem mem_listAdd_self {α : Type} [DecidableEq α] (l : List α) (a : α) :
    a ∈ listAdd l a := by
  unfold listAdd
  split
  · assumption
  · simp

theorem addTask_cases (f : Flow) (t : Task) :
    addTask f t = (f, .error .duplicateSlug) ∨
    addTask f t = ({ f with tasks := listAdd f.tasks t }, .ok ()) := by
  unfold addTask
  split
  · exact .inl rfl
  · exact .inr rfl

theorem withRestore_err_restore (f : Flow) (v : Bool) (body : Flow → Flow × Except Err Unit)
    (e : Err) :
    (withRestore f v body).2 = .error e →
    (withRestore f v body).1.tasks = f.tasks ∧ (withRestore f v body).1.edges = f.edges := by
  unfold withRestore
  split
  · intro _
    exact ⟨rfl, rfl⟩
  · split
    · split
      · intro _
        exact ⟨rfl, rfl⟩
      · intro h
        simp at h
    · intro h
      simp at h

theorem withRestore_ok (f : Flow) (v : Bool) (body : Flow → Flow × Except Err Unit) :
    (withRestore f v body).2 = .ok () →
    (withRestore f v body).1 = (body f).1 ∧ (body f).2 = .ok () := by
  unfold withRestore
  split
  · rename_i f2 e2 heq
    intro h
    simp at h
  · rename_i f2 heq
    rw [heq]
    split
    · split
      · intro h
        simp at h
      · intro _
        exact ⟨rfl, rfl⟩
    · intro _
      exact ⟨rfl, rfl⟩

theorem addEdge_err_atomic (f : Flow) (up down : TaskLike) (key : Option String) (v : Bool)
    (e : Err) :
    (addEdge f up down key v).2 = .error e →
    (addEdge f up down key v).1.tasks = f.tasks ∧ (addEdge f up down key v).1.edges = f.edges := by
  simp only [addEdge]
  by_cases hp : (TaskLike.resolve down).isParameter = true
  · rw [if_pos hp]
    intro _
    exact ⟨rfl, rfl⟩
  · rw [if_neg hp]
    by_cases hk : pyTruthy key = true
    · rw [if_pos hk]
      cases edgesTo f (TaskLike.resolve down) with
      | none =>
        intro _
        exact ⟨rfl, rfl⟩
      | some es =>
        dsimp only
        by_cases hdup : key ∈ es.map Edge.key
        · rw [if_pos hdup]
          intro _
          exact ⟨rfl, rfl⟩
        · rw [if_neg hdup]
          exact withRestore_err_restore f v _ e
    · rw [if_neg hk]
      exact withRestore_err_restore f v _ e

/-- C4: every validating mutation entry point (`add_edge`, `update`,
`add_task_results`, `set_dependencies`) is atomic: if the call raises any
exception — including a cycle found by the post-mutation validation — the
flow's task set and edge set after the call equal their values before the
call, and the raised exception is propagated unchanged (the same `e` is
returned). -/
theorem claim_C4_mutation_atomicity (f : Flow) (op : MutOp) (v : Bool) (e : Err)
    (h : (applyOp f op v).2 = .error e) :
    (applyOp f op v).1.tasks = f.tasks ∧ (applyOp f op v).1.edges = f.edges := by
  cases op with
  | edgeOp up down key => exact addEdge_err_atomic f up down key v e h
  | updateOp other => exact withRestore_err_restore f v _ e h
  | resultsOp trs => exact withRestore_err_restore f v _ e h
  | depsOp t ups downs kw => exact withRestore_err_restore f v _ e h

theorem claim_C4_witness :
    (applyOp f1 (.edgeOp (.task tX) (.task tSig) (some "k")) true).2 = .error .signatureBind ∧
    (applyOp f1 (.edgeOp (.task tX) (.task tSig) (some "k")) true).1.tasks = f1.tasks ∧
    (applyOp f1 (.edgeOp (.task tX) (.task tSig) (some "k")) true).1.edges = f1.edges :=
  ⟨by rfl, claim_C4_mutation_atomicity f1 (.edgeOp (.task tX) (.task tSig) (some "k")) true
    .signatureBind (by rfl)⟩

/- ===================================================================== -/
/- Theorems: the Parameter-downstream invariant (C7).                    -/
/- ===================================================================== -/

theorem noParamDown_addTask {f : Flow} (h : NoParamDown f) (t : Task) :
    NoParamDown (addTask f t).1 := by
  rcases addTask_cases f t with hc | hc <;> rw [hc] <;> exact h

theorem stepAdd_noParamDown {f : Flow} (h : NoParamDown f) (t : Task) {f2 : Flow}
    {r : Except Err Unit}
    (heq : (if t ∈ f.tasks then (f, Except.ok ()) else addTask f t) = (f2, r)) :
    NoParamDown f2 := by
  split at heq
  · cases heq
    exact h
  · have := noParamDown_addTask h t
    rw [heq] at this
    exact this

theorem noParamDown_withRestore {f : Flow} {v : Bool} {body : Flow → Flow × Except Err Unit}
    (hbody : NoParamDown f → NoParamDown (body f).1) (h : NoParamDown f) :
    NoParamDown (withRestore f v body).1 := by
  unfold withRestore
  split
  · exact h
  · rename_i f2 heq
    have h2 : NoParamDown f2 := by
      have := hbody h
      rw [heq] at this
      exact this
    split
    · split
      · exact h
      · exact h2
    · exact h2

theorem noParamDown_addEdgeInner {f0 : Flow} {up down : Task} {key : Option String}
    (hdown : down.isParameter = false) (h : NoParamDown f0) :
    NoParamDown (addEdgeInner up down key f0).1 := by
  simp only [addEdgeInner]
  split
  · rename_i f1 e1 heq
    exact stepAdd_noParamDown h up heq
  · rename_i f1 heq
    have h1 : NoParamDown f1 := stepAdd_noParamDown h up heq
    split
    · rename_i f2 e2 heq2
      exact stepAdd_noParamDown h1 down heq2
    · rename_i f2 heq2
      have h2 : NoParamDown f2 := stepAdd_noParamDown h1 down heq2
      have h3 : NoParamDown { f2 with edges := listAdd f2.edges ⟨up, down, key⟩ } := by
        intro e he
        rcases listAdd_mem he with he1 | he1
        · exact h2 e he1
        · subst he1
          exact hdown
      cases key with
      | none => exact h3
      | some k =>
        dsimp only
        cases edgesTo { f2 with edges := listAdd f2.edges ⟨up, down, some k⟩ } down with
        | none => exact h3
        | some es =>
          dsimp only
          split
          · exact h3
          · exact h3

theorem noParamDown_addEdge {f : Flow} (h : NoParamDown f) (up down : TaskLike)
    (key : Option String) (v : Bool) : NoParamDown (addEdge f up down key v).1 := by
  simp only [addEdge]
  by_cases hp : (TaskLike.resolve down).isParameter = true
  · rw [if_pos hp]
    exact h
  · rw [if_neg hp]
    have hdown : (TaskLike.resolve down).isParameter = false := by
      cases hh : (TaskLike.resolve down).isParameter
      · rfl
      · exact absurd hh hp
    by_cases hk : pyTruthy key = true
    · rw [if_pos hk]
      cases edgesTo f (TaskLike.resolve down) with
      | none => exact h
      | some es =>
        dsimp only
        split
        · exact h
        · exact noParamDown_withRestore (fun hf => noParamDown_addEdgeInner hdown hf) h
    · rw [if_neg hk]
      exact noParamDown_withRestore (fun hf => noParamDown_addEdgeInner hdown hf) h

theorem foldE_pres {α : Type} (P : Flow → Prop) (step : Flow → α → Flow × Except Err Unit)
    (hstep : ∀ g a, P g → P (step g a).1) :
    ∀ l f, P f → P (foldE step f l).1 := by
  intro l
  induction l with
  | nil => intro f h; exact h
  | cons a rest ih =>
    intro f h
    simp only [foldE]
    rcases hs : step f a with ⟨f1, r⟩
    have h1 : P f1 := by
      have := hstep f a h
      rw [hs] at this
      exact this
    cases r with
    | ok u =>
      cases u
      exact ih f1 h1
    | error e => exact h1

theorem noParamDown_taskStep (g : Flow) (t : Task) (hg : NoParamDown g) :
    NoParamDown (if t ∈ g.tasks then (g, Except.ok ()) else addTask g t).1 := by
  split
  · exact hg
  · exact noParamDown_addTask hg t

theorem noParamDown_edgeStep (g : Flow) (e2 : Edge) (hg : NoParamDown g) :
    NoParamDown (if e2 ∈ g.edges then (g, Except.ok ()) else
      addEdge g (.task e2.upstream) (.task e2.downstream) e2.key false).1 := by
  split
  · exact hg
  · exact noParamDown_addEdge hg (.task e2.upstream) (.task e2.downstream) e2.key false

theorem noParamDown_flowUpdate {f : Flow} (h : NoParamDown f) (other : Flow) (v : Bool) :
    NoParamDown (flowUpdate f other v).1 := by
  refine noParamDown_withRestore (fun hf => ?_) h
  dsimp only
  rcases hfold : foldE (fun g t => if t ∈ g.tasks then (g, Except.ok ()) else addTask g t)
      f other.tasks with ⟨fa, ra⟩
  have ha : NoParamDown fa := by
    have := foldE_pres NoParamDown
      (fun g t => if t ∈ g.tasks then (g, Except.ok ()) else addTask g t)
      noParamDown_taskStep other.tasks f hf
    rw [hfold] at this
    exact this
  cases ra with
  | error e => exact ha
  | ok u =>
    cases u
    exact foldE_pres NoParamDown
      (fun g e2 => if e2 ∈ g.edges then (g, Except.ok ()) else
        addEdge g (.task e2.upstream) (.task e2.downstream) e2.key false)
      noParamDown_edgeStep other.edges fa ha

theorem noParamDown_addTaskResults {f : Flow} (h : NoParamDown f) (trs : List TaskResult)
    (v : Bool) : NoParamDown (addTaskResults f trs v).1 := by
  refine noParamDown_withRestore (fun hf => ?_) h
  dsimp only
  refine foldE_pres NoParamDown _ (fun g tr hg => ?_) trs f hf
  rcases ht : addTask g tr.task with ⟨g1, r1⟩
  have h1 : NoParamDown g1 := by
    have := noParamDown_addTask hg tr.task
    rw [ht] at this
    exact this
  cases r1 with
  | error e => exact h1
  | ok u =>
    cases u
    exact noParamDown_flowUpdate h1 tr.flow false

theorem noParamDown_setDependencies {f : Flow} (h : NoParamDown f) (t0 : TaskLike)
    (ups downs : List TaskLike) (kw : List (String × TaskLike)) (v : Bool) :
    NoParamDown (setDependencies f t0 ups downs kw v).1 := by
  refine noParamDown_withRestore (fun hf => ?_) h
  dsimp only
  split
  · exact hf
  · rcases h1 : addTaskResults f [asTaskResult t0] true with ⟨f1, r1⟩
    have hf1 : NoParamDown f1 := by
      have := noParamDown_addTaskResults hf [asTaskResult t0] true
      rw [h1] at this
      exact this
    cases r1 with
    | error e => exact hf1
    | ok u =>
      cases u
      dsimp only
      rcases h2 : foldE (fun g t2 =>
          match addTaskResults g [asTaskResult t2] true with
          | (g1, .ok ()) => addEdge g1 (.result (asTaskResult t2)) (.task (asTaskResult t0).task) none false
          | (g1, .error e) => (g1, .error e)) f1 ups with ⟨f2, r2⟩
      have hstep1 : ∀ (g : Flow) (t2 : TaskLike), NoParamDown g →
          NoParamDown ((fun g t2 =>
            match addTaskResults g [asTaskResult t2] true with
            | (g1, Except.ok ()) => addEdge g1 (.result (asTaskResult t2)) (.task (asTaskResult t0).task) none false
            | (g1, Except.error e) => (g1, Except.error e)) g t2).1 := by
        intro g t2 hg
        dsimp only
        rcases ha : addTaskResults g [asTaskResult t2] true with ⟨g1, ra⟩
        have hg1 : NoParamDown g1 := by
          have := noParamDown_addTaskResults hg [asTaskResult t2] true
          rw [ha] at this
          exact this
        cases ra with
        | error e => exact hg1
        | ok u =>
          cases u
          exact noParamDown_addEdge hg1 _ _ none false
      have hf2 : NoParamDown f2 := by
        have := foldE_pres NoParamDown _ hstep1 ups f1 hf1
        rw [h2] at this
        exact this
      cases r2 with
      | error e => exact hf2
      | ok u =>
        cases u
        dsimp only
        rcases h3 : foldE (fun g t2 =>
            match addTaskResults g [asTaskResult t2] true with
            | (g1, .ok ()) => addEdge g1 (.task (asTaskResult t0).task) (.result (asTaskResult t2)) none false
            | (g1, .error e) => (g1, .error e)) f2 downs with ⟨f3, r3⟩
        have hstep2 : ∀ (g : Flow) (t2 : TaskLike), NoParamDown g →
            NoParamDown ((fun g t2 =>
              match addTaskResults g [asTaskResult t2] true with
              | (g1, Except.ok ()) => addEdge g1 (.task (asTaskResult t0).task) (.result (asTaskResult t2)) none false
              | (g1, Except.error e) => (g1, Except.error e)) g t2).1 := by
          intro g t2 hg
          dsimp only
          rcases ha : addTaskResults g [asTaskResult t2] true with ⟨g1, ra⟩
          have hg1 : NoParamDown g1 := by
            have := noParamDown_addTaskResults hg [asTaskResult t2] true
            rw [ha] at this
            exact this
          cases ra with
          | error e => exact hg1
          | ok u =>
            cases u
            exact noParamDown_addEdge hg1 _ _ none false
        have hf3 : NoParamDown f3 := by
          have := foldE_pres NoParamDown _ hstep2 downs f2 hf2
          rw [h3] at this
          exact this
        cases r3 with
        | error e => exact hf3
        | ok u =>
          cases u
          refine foldE_pres NoParamDown _ (fun g kt hg => ?_) kw f3 hf3
          dsimp only
          rcases ha : addTaskResults g [asTaskResult kt.2] true with ⟨g1, ra⟩
          have hg1 : NoParamDown g1 := by
            have := noParamDown_addTaskResults hg [asTaskResult kt.2] true
            rw [ha] at this
            exact this
          cases ra with
          | error e => exact hg1
          | ok u =>
            cases u
            exact noParamDown_addEdge hg1 _ _ (some kt.1) false

theorem noParamDown_applyOp {f : Flow} (h : NoParamDown f) (op : MutOp) (v : Bool) :
    NoParamDown (applyOp f op v).1 := by
  cases op with
  | edgeOp up down key => exact noParamDown_addEdge h up down key v
  | updateOp other => exact noParamDown_flowUpdate h other v
  | resultsOp trs => exact noParamDown_addTaskResults h trs v
  | depsOp t ups downs kw => exact noParamDown_setDependencies h t ups downs kw v

/-- C7: in every flow state reachable through the public mutation API no edge
has a `Parameter` downstream endpoint, and an `add_edge` whose resolved
downstream is a `Parameter` raises `InvalidDependencyError` before any
mutation (the returned state is exactly the input state). -/
theorem claim_C7_no_parameter_downstream :
    (∀ f : Flow, Reaches f → NoParamDown f) ∧
    (∀ (f : Flow) (up down : TaskLike) (key : Option String) (v : Bool),
      (TaskLike.resolve down).isParameter = true →
      addEdge f up down key v = (f, .error .invalidDependency)) := by
  constructor
  · intro f hreach
    induction hreach with
    | base n v => intro e he; simp at he
    | taskStep t _ ih => exact noParamDown_addTask ih t
    | opStep op v _ ih => exact noParamDown_applyOp ih op v
  · intro f up down key v hp
    simp only [addEdge]
    rw [if_pos hp]

theorem claim_C7_witness :
    NoParamDown chainFlow ∧
    addEdge f0 (.task tX) (.task tP) none true = (f0, .error .invalidDependency) := by
  constructor
  · exact claim_C7_no_parameter_downstream.1 chainFlow
      (by
        have h0 : Reaches ⟨"w", none, [], []⟩ := Reaches.base "w" none
        have h1 := Reaches.taskStep tX h0
        have h2 := Reaches.taskStep tY h1
        have h3 := Reaches.opStep (.edgeOp (.task tX) (.task tY) none) true h2
        exact (by decide :
          (applyOp (addTask (addTask (⟨"w", none, [], []⟩ : Flow) tX).1 tY).1
            (.edgeOp (.task tX) (.task tY) none) true).1 = chainFlow) ▸ h3)
  · exact claim_C7_no_parameter_downstream.2 f0 (.task tX) (.task tP) none true (by decide)

/- ===================================================================== -/
/- Theorems: slug uniqueness, endpoint auto-insertion, key checks.       -/
/- ===================================================================== -/

/-- C9: adding a new task whose non-empty slug collides with the slug of a
task already in the flow raises `DuplicateSlugError` and leaves the flow —
including the previously added task — unchanged. -/
theorem claim_C9_duplicate_slug (f : Flow) (t1 t2 : Task)
    (h1 : t1 ∈ f.tasks) (h2 : t2 ∉ f.tasks) (hs : t1.slug = t2.slug) (hne : t2.slug ≠ "") :
    addTask f t2 = (f, .error .duplicateSlug) ∧ t1 ∈ (addTask f t2).1.tasks := by
  have heq : addTask f t2 = (f, .error .duplicateSlug) := by
    unfold addTask
    rw [if_pos]
    exact ⟨h2, hne, by rw [← hs]; exact List.mem_map_of_mem Task.slug h1⟩
  refine ⟨heq, ?_⟩
  rw [heq]
  exact h1

theorem claim_C9_witness :
    addTask ⟨"s", none, [tSlugA], []⟩ tSlugB =
      ((⟨"s", none, [tSlugA], []⟩ : Flow), .error .duplicateSlug) ∧
    tSlugA ∈ (addTask ⟨"s", none, [tSlugA], []⟩ tSlugB).1.tasks :=
  claim_C9_duplicate_slug _ tSlugA tSlugB (by decide) (by decide) (by decide) (by decide)

theorem addTask_mem_of_ok {f : Flow} {t : Task} {f2 : Flow}
    (heq : addTask f t = (f2, Except.ok ())) : t ∈ f2.tasks := by
  rcases addTask_cases f t with hc | hc
  · rw [hc] at heq
    exact absurd (congrArg Prod.snd heq) (by simp)
  · rw [hc] at heq
    cases heq
    exact mem_listAdd_self f.tasks t

theorem stepAdd_mem {f : Flow} {t : Task} {f2 : Flow}
    (heq : (if t ∈ f.tasks then (f, Except.ok ()) else addTask f t) = (f2, Except.ok ())) :
    t ∈ f2.tasks := by
  split at heq
  · rename_i hm
    cases heq
    exact hm
  · exact addTask_mem_of_ok heq

theorem stepAdd_mono {f : Flow} {t x : Task} {f2 : Flow} {r : Except Err Unit}
    (heq : (if t ∈ f.tasks then (f, Except.ok ()) else addTask f t) = (f2, r))
    (hx : x ∈ f.tasks) : x ∈ f2.tasks := by
  split at heq
  · cases heq
    exact hx
  · rcases addTask_cases f t with hc | hc
    · rw [hc] at heq
      cases heq
      exact hx
    · rw [hc] at heq
      cases heq
      exact mem_listAdd_of_mem t hx

theorem addEdgeInner_ok_mem {f0 : Flow} {up down : Task} {key : Option String} {f3 : Flow}
    (heq : addEdgeInner up down key f0 = (f3, Except.ok ())) :
    up ∈ f3.tasks ∧ down ∈ f3.tasks := by
  revert heq
  simp only [addEdgeInner]
  split
  · intro heq
    exact absurd (congrArg Prod.snd heq) (by simp)
  · rename_i f1 heq1
    split
    · intro heq
      exact absurd (congrArg Prod.snd heq) (by simp)
    · rename_i f2 heq2
      have hup1 : up ∈ f1.tasks := stepAdd_mem heq1
      have hdown2 : down ∈ f2.tasks := stepAdd_mem heq2
      have hup2 : up ∈ f2.tasks := stepAdd_mono heq2 hup1
      cases key with
      | none =>
        intro heq
        cases heq
        exact ⟨hup2, hdown2⟩
      | some k =>
        dsimp only
        cases edgesTo { f2 with edges := listAdd f2.edges ⟨up, down, some k⟩ } down with
        | none =>
          intro heq
          exact absurd (congrArg Prod.snd heq) (by simp)
        | some es =>
          dsimp only
          split
          · intro heq
            cases heq
            exact ⟨hup2, hdown2⟩
          · intro heq
            exact absurd (congrArg Prod.snd heq) (by simp)

theorem addEdge_ok_endpoints (f : Flow) (up down : TaskLike) (key : Option String) (v : Bool)
    (h : (addEdge f up down key v).2 = .ok ()) :
    TaskLike.resolve up ∈ (addEdge f up down key v).1.tasks ∧
    TaskLike.resolve down ∈ (addEdge f up down key v).1.tasks := by
  revert h
  simp only [addEdge]
  by_cases hp : (TaskLike.resolve down).isParameter = true
  · rw [if_pos hp]
    intro h
    simp at h
  · rw [if_neg hp]
    by_cases hk : pyTruthy key = true
    · rw [if_pos hk]
      cases edgesTo f (TaskLike.resolve down) with
      | none =>
        intro h
        simp at h
      | some es =>
        dsimp only
        split
        · intro h
          simp at h
        · intro h
          obtain ⟨h1, h2⟩ := withRestore_ok f v _ h
          rcases hb : addEdgeInner (TaskLike.resolve up) (TaskLike.resolve down) key f
            with ⟨f3, r3⟩
          rw [hb] at h2
          cases h2
          obtain ⟨hu, hd⟩ := addEdgeInner_ok_mem hb
          rw [h1, hb]
          exact ⟨hu, hd⟩
    · rw [if_neg hk]
      intro h
      obtain ⟨h1, h2⟩ := withRestore_ok f v _ h
      rcases hb : addEdgeInner (TaskLike.resolve up) (TaskLike.resolve down) key f
        with ⟨f3, r3⟩
      rw [hb] at h2
      cases h2
      obtain ⟨hu, hd⟩ := addEdgeInner_ok_mem hb
      rw [h1, hb]
      exact ⟨hu, hd⟩

theorem addEdge_truthy_missing_keyError (f : Flow) (up down : TaskLike) (k : String) (v : Bool)
    (hk : k ≠ "") (hmem : TaskLike.resolve down ∉ f.tasks)
    (hp : (TaskLike.resolve down).isParameter = false) :
    addEdge f up down (some k) v = (f, .error .keyError) := by
  simp only [addEdge]
  rw [if_neg (by simp [hp])]
  rw [if_pos (by simp [pyTruthy, hk])]
  rw [show edgesTo f (TaskLike.resolve down) = none from by simp [edgesTo, hmem]]

/-- C5 (amended): whenever `add_edge` succeeds, both resolved endpoints are
members of the resulting task set — missing endpoints are auto-inserted via
`add_task`; but a call with a *truthy* (non-null, non-empty) key whose
downstream is not yet a member never reaches the auto-insertion: it raises
`KeyError` at the duplicate-key dict lookup.  (The claim as frozen — success
with auto-insertion "for both null and non-null key" — fails for truthy keys,
see the counterexample.) -/
theorem claim_C5_amended :
    (∀ (f : Flow) (up down : TaskLike) (key : Option String) (v : Bool),
      (addEdge f up down key v).2 = .ok () →
      TaskLike.resolve up ∈ (addEdge f up down key v).1.tasks ∧
      TaskLike.resolve down ∈ (addEdge f up down key v).1.tasks) ∧
    (∀ (f : Flow) (up down : TaskLike) (k : String) (v : Bool),
      k ≠ "" → TaskLike.resolve down ∉ f.tasks → (TaskLike.resolve down).isParameter = false →
      addEdge f up down (some k) v = (f, .error .keyError)) :=
  ⟨addEdge_ok_endpoints, addEdge_truthy_missing_keyError⟩

/-- C5 counterexample: with the truthy key `"k"` and the downstream task `tK`
(which declares the keyword `k`) not yet in the empty flow, the call violates
none of the spec's constraints yet raises `KeyError` instead of succeeding
with auto-inserted endpoints. -/
theorem claim_C5_counterexample :
    tK ∉ f0.tasks ∧
    addEdge f0 (.task tX) (.task tK) (some "k") true = (f0, .error .keyError) :=
  ⟨by decide, by rfl⟩

theorem claim_C5_witness :
    (addEdge f0 (.task tX) (.task tY) none true).2 = .ok () ∧
    tX ∈ (addEdge f0 (.task tX) (.task tY) none true).1.tasks ∧
    tY ∈ (addEdge f0 (.task tX) (.task tY) none true).1.tasks := by
  have h := claim_C5_amended.1 f0 (.task tX) (.task tY) none true (by rfl)
  exact ⟨by rfl, h.1, h.2⟩

/-- C10 (amended): the adjacency lookups `edges_to`/`edges_from` are dict
accesses defined exactly for member tasks — they raise `KeyError` (return
`none`) precisely on non-members; consequently `add_edge` with a *truthy*
(non-null, non-empty) key and a downstream not yet in the task set fails with
`KeyError` at the duplicate-key check, before any endpoint auto-insertion.
(The frozen claim said this for every non-null key; the non-null but falsy
key `""` skips the duplicate-key lookup, see the counterexample.) -/
theorem claim_C10_amended (f : Flow) :
    (∀ t : Task, (edgesTo f t = none ↔ t ∉ f.tasks) ∧ (edgesFrom f t = none ↔ t ∉ f.tasks)) ∧
    (∀ (up down : TaskLike) (k : String) (v : Bool),
      k ≠ "" → TaskLike.resolve down ∉ f.tasks →
      (TaskLike.resolve down).isParameter = false →
      addEdge f up down (some k) v = (f, .error .keyError)) := by
  constructor
  · intro t
    by_cases hm : t ∈ f.tasks <;> simp [edgesTo, edgesFrom, hm]
  · intro up down k v hk hmem hp
    exact addEdge_truthy_missing_keyError f up down k v hk hmem hp

/-- C10 counterexample: with the non-null but empty key `""` (non-null yet
falsy in Python, so `if key and ...` skips the duplicate-key dict lookup) and
the downstream `tD1` (which accepts arbitrary keywords) not yet in the task
set, the call succeeds and auto-inserts both endpoints instead of failing at
the duplicate-key check. -/
theorem claim_C10_counterexample :
    tD1 ∉ f0.tasks ∧
    (addEdge f0 (.task tX) (.task tD1) (some "") true).2 = .ok () ∧
    tD1 ∈ (addEdge f0 (.task tX) (.task tD1) (some "") true).1.tasks :=
  ⟨by decide, by rfl, by decide⟩

theorem claim_C10_witness :
    edgesTo f0 tX = none ∧
    addEdge f1 (.task tY) (.task tK) (some "k") true = (f1, .error .keyError) := by
  constructor
  · exact ((claim_C10_amended f0).1 tX).1.mpr (by decide)
  · exact (claim_C10_amended f1).2 (.task tY) (.task tK) "k" true (by decide) (by decide)
      (by decide)

/- ===================================================================== -/
/- Theorems: the signature-binding check and the validate flag (C6).     -/
/- ===================================================================== -/

theorem flowValidate_err_val (f : Flow) (e : Err) (h : flowValidate f = .error e) :
    e = .cyclicGraph := by
  unfold flowValidate at h
  cases hs : sortedTasks f with
  | ok l =>
    rw [hs] at h
    simp at h
  | error e2 =>
    rw [hs] at h
    simp at h
    obtain ⟨hval, -⟩ := sortLoop_err (upstreamTasksOf f) f.tasks.length f.tasks [] e2 le_rfl hs
    rw [← h]
    exact hval

theorem withRestore_sigBind_iff (f : Flow) (body : Flow → Flow × Except Err Unit) :
    (withRestore f false body).2 = .error .signatureBind ↔
    (withRestore f true body).2 = .error .signatureBind := by
  unfold withRestore
  rcases body f with ⟨f2, r⟩
  cases r with
  | error e => exact Iff.rfl
  | ok u =>
    cases u
    constructor
    · intro h
      simp at h
    · intro h
      dsimp only at h
      cases hval : flowValidate f2 with
      | error e3 =>
        have hv3 := flowValidate_err_val f2 e3 hval
        subst hv3
        rw [hval] at h
        simp at h
      | ok u2 =>
        cases u2
        rw [hval] at h
        simp at h

/-- C6 (amended): whether `add_edge` raises `SignatureBindError` is
independent of the `validate` flag — the binding check runs inside the
rollback block whenever `key` is non-null, regardless of `validate`; the flag
gates only the post-mutation cycle check.  (The frozen claim — no binding
check when `validate` is false — is refuted by the counterexample.) -/
theorem claim_C6_amended (f : Flow) (up down : TaskLike) (key : Option String) :
    (addEdge f up down key false).2 = .error .signatureBind ↔
    (addEdge f up down key true).2 = .error .signatureBind := by
  simp only [addEdge]
  by_cases hp : (TaskLike.resolve down).isParameter = true
  · rw [if_pos hp, if_pos hp]
  · rw [if_neg hp, if_neg hp]
    by_cases hk : pyTruthy key = true
    · rw [if_pos hk, if_pos hk]
      cases edgesTo f (TaskLike.resolve down) with
      | none => exact Iff.rfl
      | some es =>
        dsimp only
        split
        · exact Iff.rfl
        · exact withRestore_sigBind_iff f _
    · rw [if_neg hk, if_neg hk]
      exact withRestore_sigBind_iff f _

/-- C6 counterexample: a call with `validate=False` still performs the
signature-binding check — binding key `"k"` against `tSig`, whose `run`
accepts only the keyword `x`, raises `SignatureBindError` although `validate`
is false (and the graph is rolled back). -/
theorem claim_C6_counterexample :
    (addEdge f1 (.task tX) (.task tSig) (some "k") false).2 = .error .signatureBind ∧
    (addEdge f1 (.task tX) (.task tSig) (some "k") false).1 = f1 :=
  ⟨by rfl, by rfl⟩

/- ===================================================================== -/
/- Theorems: the fingerprint engine (C1, C8).                            -/
/- ===================================================================== -/

theorem count_map_eq_countP (g : Task → Nat) (l : List Task) (h : Nat) :
    (l.map g).count h = l.countP (fun u => g u == h) := by
  induction l with
  | nil => rfl
  | cons a rest ih =>
    simp only [List.map_cons, List.count_cons, List.countP_cons, ih]

theorem countP_setF_le (allT : List Task) (hnd : allT.Nodup) (hs : Task → Nat) (t : Task)
    (v h : Nat) :
    allT.countP (fun u => setF hs t v u == h) ≤
      allT.countP (fun u => hs u == h) + (if v = h then 1 else 0) := by
  induction allT with
  | nil => simp
  | cons a rest ih =>
    have hnda : a ∉ rest := (List.nodup_cons.mp hnd).1
    have hndr : rest.Nodup := (List.nodup_cons.mp hnd).2
    rw [List.countP_cons, List.countP_cons]
    by_cases hat : a = t
    · subst hat
      have hrest : rest.countP (fun u => setF hs a v u == h) =
          rest.countP (fun u => hs u == h) := by
        apply List.countP_congr
        intro u hu
        have hua : u ≠ a := fun he => hnda (he ▸ hu)
        simp [setF, hua]
      rw [hrest]
      have hself : setF hs a v a = v := by simp [setF]
      rw [hself]
      by_cases hv : v = h
      · subst hv
        simp
      · have : (v == h) = false := beq_false_of_ne hv
        rw [this, if_neg hv]
        simp
    · have hself : setF hs t v a = hs a := by simp [setF, hat]
      rw [hself]
      have := ih hndr
      omega

theorem cntOk_setF_bump {allT : List Task} (hnd : allT.Nodup) {hs : Task → Nat} {c : Nat → Nat}
    (hcnt : CntOk allT hs c) (t : Task) (v : Nat) :
    CntOk allT (setF hs t v) (bump c v) := by
  intro h
  have hle := countP_setF_le allT hnd hs t v h
  by_cases hvh : v = h
  · subst hvh
    have : bump c v v = c v + 1 := by simp [bump]
    rw [this]
    have := hcnt v
    rw [if_pos rfl] at hle
    omega
  · have : bump c v h = c h := by simp [bump, Ne.symm hvh]
    rw [this]
    have := hcnt h
    simp only [if_neg hvh] at hle
    omega

theorem bump_le (c : Nat → Nat) (v h : Nat) : c h ≤ bump c v h := by
  simp only [bump]
  split <;> omega

theorem countP_pos_of_mem {allT : List Task} {hs : Task → Nat} {t : Task} (ht : t ∈ allT) :
    1 ≤ allT.countP (fun u => hs u == (hs t)) := by
  have : 0 < allT.countP (fun u => hs u == (hs t)) :=
    List.countP_pos.mpr ⟨t, ht, by simp⟩
  omega

theorem countP_two_of_distinct {allT : List Task} (hnd : allT.Nodup) {hs : Task → Nat}
    {t1 t2 : Task} (h1 : t1 ∈ allT) (h2 : t2 ∈ allT) (hne : t1 ≠ t2)
    (heq : hs t1 = hs t2) :
    2 ≤ allT.countP (fun u => hs u == (hs t1)) := by
  have hperm : List.Perm allT (t1 :: allT.erase t1) := List.perm_cons_erase h1
  rw [hperm.countP_eq]
  rw [List.countP_cons]
  have h2e : t2 ∈ allT.erase t1 := (List.mem_erase_of_ne (Ne.symm hne)).2 h2
  have hpos : 0 < (allT.erase t1).countP (fun u => hs u == (hs t1)) :=
    List.countP_pos.mpr ⟨t2, h2e, by simp [heq]⟩
  rw [if_pos (by simp : (hs t1 == hs t1) = true)]
  omega

theorem upsert_keys (l : List (Task × Nat)) (t : Task) (v : Nat) :
    (upsert l t v).map Prod.fst =
      if t ∈ l.map Prod.fst then l.map Prod.fst else l.map Prod.fst ++ [t] := by
  induction l with
  | nil => simp [upsert]
  | cons p rest ih =>
    rcases p with ⟨k, w⟩
    simp only [upsert]
    by_cases hkt : k = t
    · subst hkt
      simp
    · rw [if_neg hkt]
      simp only [List.map_cons]
      rw [ih]
      by_cases hmem : t ∈ rest.map Prod.fst
      · rw [if_pos hmem, if_pos (by simp [hmem])]
      · rw [if_neg hmem, if_neg (by simp [hmem, Ne.symm hkt]), List.cons_append]

theorem upsert_keys_nodup {l : List (Task × Nat)} (hnd : (l.map Prod.fst).Nodup)
    (t : Task) (v : Nat) : ((upsert l t v).map Prod.fst).Nodup := by
  rw [upsert_keys]
  by_cases hmem : t ∈ l.map Prod.fst
  · rw [if_pos hmem]
    exact hnd
  · rw [if_neg hmem]
    exact List.Nodup.append hnd (List.nodup_singleton t)
      (by simpa [List.disjoint_singleton] using hmem)

theorem upsert_mem {l : List (Task × Nat)} (hnd : (l.map Prod.fst).Nodup)
    {t : Task} {v : Nat} {p : Task × Nat}
    (hmem : p ∈ upsert l t v) : (p ∈ l ∧ p.1 ≠ t) ∨ p = (t, v) := by
  induction l with
  | nil =>
    simp [upsert] at hmem
    exact .inr hmem
  | cons q rest ih =>
    rcases q with ⟨k, w⟩
    have hknr : k ∉ rest.map Prod.fst := (List.nodup_cons.mp (by simpa using hnd)).1
    have hndr : (rest.map Prod.fst).Nodup := (List.nodup_cons.mp (by simpa using hnd)).2
    simp only [upsert] at hmem
    by_cases hkt : k = t
    · subst hkt
      rw [if_pos rfl] at hmem
      rcases List.mem_cons.mp hmem with h1 | h1
      · exact .inr h1
      · refine .inl ⟨List.mem_cons_of_mem _ h1, ?_⟩
        intro hp1
        exact hknr (hp1 ▸ List.mem_map_of_mem Prod.fst h1)
    · rw [if_neg hkt] at hmem
      rcases List.mem_cons.mp hmem with h1 | h1
      · subst h1
        exact .inl ⟨List.mem_cons_self _ _, hkt⟩
      · rcases ih hndr h1 with ⟨hm, hne⟩ | he
        · exact .inl ⟨List.mem_cons_of_mem _ hm, hne⟩
        · exact .inr he

theorem xor_left_cancel {s a b : Nat} (h : Nat.xor s a = Nat.xor s b) : a = b := by
  have h2 : s ^^^ a = s ^^^ b := h
  have h3 := congrArg (fun x => s ^^^ x) h2
  simpa [← Nat.xor_assoc] using h3

theorem rehashLoop_inv (H : HIn → Nat) (t : Task) (allT : List Task) (hnd : allT.Nodup) :
    ∀ (fuel : Nat) (hs : Task → Nat) (c : Nat → Nat) (hs2 : Task → Nat) (c2 : Nat → Nat),
      rehashLoop H t fuel hs c = .ok (hs2, c2) →
      CntOk allT hs c →
      CntOk allT hs2 c2 ∧ (∀ x, x ≠ t → hs2 x = hs x) ∧ c2 (hs2 t) ≤ 1 := by
  intro fuel
  induction fuel with
  | zero =>
    intro hs c hs2 c2 heq hcnt
    rw [rehashLoop] at heq
    by_cases hgt : c (hs t) > 1
    · rw [if_pos hgt] at heq
      simp at heq
    · rw [if_neg hgt] at heq
      simp at heq
      obtain ⟨h1, h2⟩ := heq
      subst h1
      subst h2
      exact ⟨hcnt, fun x _ => rfl, by omega⟩
  | succ fuel2 ih =>
    intro hs c hs2 c2 heq hcnt
    rw [rehashLoop] at heq
    by_cases hgt : c (hs t) > 1
    · rw [if_pos hgt] at heq
      have hcnt2 : CntOk allT (setF hs t (H (.raw (hs t)))) (bump c (H (.raw (hs t)))) :=
        cntOk_setF_bump hnd hcnt t _
      obtain ⟨ha, hb, hc2⟩ := ih _ _ _ _ heq hcnt2
      refine ⟨ha, ?_, hc2⟩
      intro x hx
      rw [hb x hx]
      simp [setF, hx]
    · rw [if_neg hgt] at heq
      simp at heq
      obtain ⟨h1, h2⟩ := heq
      subst h1
      subst h2
      exact ⟨hcnt, fun x _ => rfl, by omega⟩

theorem fwd1Step_basic (H : HIn → Nat) (f : Flow) (allT : List Task) (hnd : allT.Nodup)
    (st : FpState) (t : Task) (st2 : FpState) (ht : t ∈ allT)
    (hstep : fwd1Step H f st t = .ok st2)
    (hcnt : CntOk allT st.hashes st.counter)
    (hkeys : ∀ p ∈ st.final, p.1 ∈ allT)
    (hknd : (st.final.map Prod.fst).Nodup) :
    CntOk allT st2.hashes st2.counter ∧ (∀ p ∈ st2.final, p.1 ∈ allT) ∧
    (st2.final.map Prod.fst).Nodup := by
  revert hstep
  simp only [fwd1Step]
  split
  · intro hstep
    cases hstep
    refine ⟨hcnt, ?_, upsert_keys_nodup hknd t _⟩
    intro p hp
    rcases upsert_mem hknd hp with ⟨hm, -⟩ | he
    · exact hkeys p hm
    · rw [he]
      exact ht
  · cases hsort : pySortPairs ((edgesToList f t).map fun e => (e.key, st.hashes e.upstream)) with
    | error e =>
      intro hstep
      simp at hstep
    | ok ehs =>
      dsimp only
      intro hstep
      cases hstep
      exact ⟨cntOk_setF_bump hnd hcnt t _, hkeys, hknd⟩

theorem bwdStep_basic (H : HIn → Nat) (f : Flow) (allT : List Task) (hnd : allT.Nodup)
    (st : FpState) (t : Task) (st2 : FpState) (ht : t ∈ allT)
    (hstep : bwdStep H f st t = .ok st2)
    (hcnt : CntOk allT st.hashes st.counter)
    (hkeys : ∀ p ∈ st.final, p.1 ∈ allT)
    (hknd : (st.final.map Prod.fst).Nodup) :
    CntOk allT st2.hashes st2.counter ∧ (∀ p ∈ st2.final, p.1 ∈ allT) ∧
    (st2.final.map Prod.fst).Nodup := by
  revert hstep
  simp only [bwdStep]
  split
  · intro hstep
    cases hstep
    refine ⟨hcnt, ?_, upsert_keys_nodup hknd t _⟩
    intro p hp
    rcases upsert_mem hknd hp with ⟨hm, -⟩ | he
    · exact hkeys p hm
    · rw [he]
      exact ht
  · cases hsort : pySortPairs ((edgesFromList f t).map fun e => (e.key, st.hashes e.downstream)) with
    | error e =>
      intro hstep
      simp at hstep
    | ok ehs =>
      dsimp only
      intro hstep
      cases hstep
      exact ⟨cntOk_setF_bump hnd hcnt t _, hkeys, hknd⟩

theorem runPass_basic_inv (allT : List Task)
    (step : FpState → Task → Except Err FpState)
    (hstep : ∀ st t st2, t ∈ allT → step st t = .ok st2 →
      CntOk allT st.hashes st.counter → (∀ p ∈ st.final, p.1 ∈ allT) →
      (st.final.map Prod.fst).Nodup →
      CntOk allT st2.hashes st2.counter ∧ (∀ p ∈ st2.final, p.1 ∈ allT) ∧
      (st2.final.map Prod.fst).Nodup) :
    ∀ (ts : List Task) (st st2 : FpState), (∀ x ∈ ts, x ∈ allT) →
      runPass step st ts = .ok st2 →
      CntOk allT st.hashes st.counter → (∀ p ∈ st.final, p.1 ∈ allT) →
      (st.final.map Prod.fst).Nodup →
      CntOk allT st2.hashes st2.counter ∧ (∀ p ∈ st2.final, p.1 ∈ allT) ∧
      (st2.final.map Prod.fst).Nodup := by
  intro ts
  induction ts with
  | nil =>
    intro st st2 _ heq h1 h2 h3
    simp [runPass] at heq
    subst heq
    exact ⟨h1, h2, h3⟩
  | cons t rest ih =>
    intro st st2 hsub heq h1 h2 h3
    simp only [runPass] at heq
    cases hs1 : step st t with
    | error e =>
      rw [hs1] at heq
      simp at heq
    | ok stm =>
      rw [hs1] at heq
      obtain ⟨a, b, c⟩ := hstep st t stm (hsub t (by simp)) hs1 h1 h2 h3
      exact ih stm st2 (fun x hx => hsub x (by simp [hx])) heq a b c

theorem fwd2Step_inv (H : HIn → Nat) (fuel : Nat) (f : Flow) (allT : List Task)
    (hnd : allT.Nodup) (processed : List Task) (t : Task) (st st2 : FpState)
    (ht : t ∈ allT) (htp : t ∉ processed) (hpsub : ∀ x ∈ processed, x ∈ allT)
    (hstep : fwd2Step H fuel f st t = .ok st2)
    (hcnt : CntOk allT st.hashes st.counter)
    (hkeys : ∀ p ∈ st.final, p.1 ∈ allT)
    (hknd : (st.final.map Prod.fst).Nodup)
    (hvals : ∀ p ∈ st.final, p.1 ∈ processed → p.2 = st.hashes p.1)
    (hinj : HashInj processed st.hashes) :
    CntOk allT st2.hashes st2.counter ∧
    (∀ p ∈ st2.final, p.1 ∈ allT) ∧
    (st2.final.map Prod.fst).Nodup ∧
    (∀ p ∈ st2.final, p.1 ∈ processed ++ [t] → p.2 = st2.hashes p.1) ∧
    HashInj (processed ++ [t]) st2.hashes := by
  revert hstep
  simp only [fwd2Step]
  split
  · rename_i hc1
    intro hstep
    cases hstep
    have hext : ∀ u ∈ processed, st.hashes u ≠ st.hashes t := by
      intro u hu hequ
      have h2 := countP_two_of_distinct hnd (hpsub u hu) ht (fun he => htp (he ▸ hu)) hequ
      have h3 := hcnt (st.hashes u)
      rw [hequ] at h2 h3
      omega
    refine ⟨hcnt, ?_, upsert_keys_nodup hknd t _, ?_, ?_⟩
    · intro p hp
      rcases upsert_mem hknd hp with ⟨hm, -⟩ | he
      · exact hkeys p hm
      · rw [he]
        exact ht
    · intro p hp hpmem
      rcases upsert_mem hknd hp with ⟨hm, hne⟩ | he
      · rcases List.mem_append.mp hpmem with hpm | hpm
        · exact hvals p hm hpm
        · simp at hpm
          exact absurd hpm hne
      · rw [he]
    · intro t1 ht1 t2 ht2 hne
      rcases List.mem_append.mp ht1 with hm1 | hm1 <;> rcases List.mem_append.mp ht2 with hm2 | hm2
      · exact hinj t1 hm1 t2 hm2 hne
      · simp at hm2
        subst hm2
        exact hext t1 hm1
      · simp at hm1
        subst hm1
        intro hequ
        exact hext t2 hm2 hequ.symm
      · simp at hm1 hm2
        subst hm1
        subst hm2
        exact absurd rfl hne
  · rename_i hcn
    cases hsort : pySortPairs ((edgesToList f t).map fun e => (e.key, st.hashes e.upstream)) with
    | error e =>
      intro hstep
      simp at hstep
    | ok ehs =>
      dsimp only
      cases hloop : rehashLoop H t fuel
          (setF st.hashes t (H (.tupleS (st.hashes t) ehs)))
          (bump st.counter (H (.tupleS (st.hashes t) ehs))) with
      | error e =>
        intro hstep
        simp at hstep
      | ok pr =>
        rcases pr with ⟨hs2, c2⟩
        dsimp only
        intro hstep
        cases hstep
        have hcnt1 : CntOk allT (setF st.hashes t (H (.tupleS (st.hashes t) ehs)))
            (bump st.counter (H (.tupleS (st.hashes t) ehs))) :=
          cntOk_setF_bump hnd hcnt t _
        obtain ⟨hcnt2, hagree, hle⟩ := rehashLoop_inv H t allT hnd fuel _ _ _ _ hloop hcnt1
        have hagree2 : ∀ x, x ≠ t → hs2 x = st.hashes x := by
          intro x hx
          rw [hagree x hx]
          simp [setF, hx]
        have hext : ∀ u ∈ processed, hs2 u ≠ hs2 t := by
          intro u hu hequ
          have h2 := countP_two_of_distinct hnd (hpsub u hu) ht (fun he => htp (he ▸ hu)) hequ
          have h3 := hcnt2 (hs2 u)
          rw [hequ] at h2 h3
          omega
        refine ⟨hcnt2, ?_, upsert_keys_nodup hknd t _, ?_, ?_⟩
        · intro p hp
          rcases upsert_mem hknd hp with ⟨hm, -⟩ | he
          · exact hkeys p hm
          · rw [he]
            exact ht
        · intro p hp hpmem
          rcases upsert_mem hknd hp with ⟨hm, hne⟩ | he
          · rcases List.mem_append.mp hpmem with hpm | hpm
            · rw [hvals p hm hpm]
              exact (hagree2 p.1 hne).symm
            · simp at hpm
              exact absurd hpm hne
          · rw [he]
        · intro t1 ht1 t2 ht2 hne
          rcases List.mem_append.mp ht1 with hm1 | hm1 <;> rcases List.mem_append.mp ht2 with hm2 | hm2
          · have he1 : t1 ≠ t := fun he => htp (he ▸ hm1)
            have he2 : t2 ≠ t := fun he => htp (he ▸ hm2)
            show hs2 t1 ≠ hs2 t2
            rw [hagree2 t1 he1, hagree2 t2 he2]
            exact hinj t1 hm1 t2 hm2 hne
          · simp at hm2
            subst hm2
            exact hext t1 hm1
          · simp at hm1
            subst hm1
            intro hequ
            exact hext t2 hm2 hequ.symm
          · simp at hm1 hm2
            subst hm1
            subst hm2
            exact absurd rfl hne

theorem runPass_fwd2_inv (H : HIn → Nat) (fuel : Nat) (f : Flow) (allT : List Task)
    (hnd : allT.Nodup) :
    ∀ (ts processed : List Task) (st st2 : FpState),
      processed ++ ts = allT →
      runPass (fwd2Step H fuel f) st ts = .ok st2 →
      CntOk allT st.hashes st.counter →
      (∀ p ∈ st.final, p.1 ∈ allT) →
      (st.final.map Prod.fst).Nodup →
      (∀ p ∈ st.final, p.1 ∈ processed → p.2 = st.hashes p.1) →
      HashInj processed st.hashes →
      (∀ p ∈ st2.final, p.1 ∈ allT) ∧
      (st2.final.map Prod.fst).Nodup ∧
      (∀ p ∈ st2.final, p.1 ∈ allT → p.2 = st2.hashes p.1) ∧
      HashInj allT st2.hashes := by
  intro ts
  induction ts with
  | nil =>
    intro processed st st2 hsplit heq h1 h2 h3 h4 h5
    simp [runPass] at heq
    subst heq
    simp at hsplit
    subst hsplit
    exact ⟨h2, h3, h4, h5⟩
  | cons t rest ih =>
    intro processed st st2 hsplit heq h1 h2 h3 h4 h5
    simp only [runPass] at heq
    cases hs1 : fwd2Step H fuel f st t with
    | error e =>
      rw [hs1] at heq
      simp at heq
    | ok stm =>
      rw [hs1] at heq
      have ht : t ∈ allT := by
        rw [← hsplit]
        exact List.mem_append_right _ (by simp)
      have hndsplit : (processed ++ t :: rest).Nodup := by
        rw [hsplit]
        exact hnd
      have htp : t ∉ processed := by
        rcases List.nodup_append.mp hndsplit with ⟨-, -, hdis⟩
        intro hmem
        exact hdis hmem (by simp)
      have hpsub : ∀ x ∈ processed, x ∈ allT := by
        intro x hx
        rw [← hsplit]
        exact List.mem_append_left _ hx
      obtain ⟨a1, a2, a3, a4, a5⟩ :=
        fwd2Step_inv H fuel f allT hnd processed t st stm ht htp hpsub hs1 h1 h2 h3 h4 h5
      refine ih (processed ++ [t]) stm st2 ?_ heq a1 a2 a3 a4 a5
      rw [List.append_assoc]
      simpa using hsplit

theorem final_map_nodup (hs3 : Task → Nat) (allT : List Task)
    (final : List (Task × Nat)) (seed : Nat)
    (hkeys : ∀ p ∈ final, p.1 ∈ allT)
    (hknd : (final.map Prod.fst).Nodup)
    (hvals : ∀ p ∈ final, p.2 = hs3 p.1)
    (hinj : HashInj allT hs3) :
    ((final.map (fun p => (p.1, Nat.xor seed p.2))).map Prod.snd).Nodup := by
  rw [List.map_map]
  have heq : final.map (Prod.snd ∘ fun p => (p.1, Nat.xor seed p.2)) =
      (final.map Prod.fst).map (fun k => Nat.xor seed (hs3 k)) := by
    rw [List.map_map]
    apply List.map_congr_left
    intro p hp
    simp [Function.comp, hvals p hp]
  rw [heq]
  apply List.Nodup.map_on ?_ hknd
  intro x hx y hy hxy
  have hxa : x ∈ allT := by
    obtain ⟨p, hp, hpe⟩ := List.mem_map.mp hx
    exact hpe ▸ hkeys p hp
  have hya : y ∈ allT := by
    obtain ⟨p, hp, hpe⟩ := List.mem_map.mp hy
    exact hpe ▸ hkeys p hp
  have hh : hs3 x = hs3 y := xor_left_cancel hxy
  by_contra hne
  exact hinj x hxa y hya hne hh

/-- Whenever `generate_task_ids` returns (raising neither the mixed-key
`TypeError` nor failing to leave the re-hash loop), the returned IDs are
pairwise distinct — for an arbitrary digest function, an arbitrary fuel and
any flow: the forced re-hash-until-unique loop of the final forward pass
guarantees injectivity even in the presence of arbitrary digest collisions. -/
theorem generateTaskIds_ids_nodup (H : HIn → Nat) (fuel : Nat) (f : Flow)
    (hnd : f.tasks.Nodup) (ids : List (Task × Nat))
    (hok : generateTaskIds H fuel f = .ok ids) :
    (ids.map Prod.snd).Nodup := by
  revert hok
  simp only [generateTaskIds]
  cases hsort : sortedTasks f with
  | error e =>
    intro hok
    simp at hok
  | ok order =>
    dsimp only
    obtain ⟨hperm, -⟩ := sortedTasks_ok_perm f order hnd hsort
    have hndo : order.Nodup := hperm.nodup_iff.mpr hnd
    have hcnt0 : CntOk order (fun t => baseHash H t)
        (fun h => (f.tasks.map (baseHash H)).count h) := by
      intro h
      dsimp only
      rw [count_map_eq_countP]
      exact le_of_eq (hperm.countP_eq _)
    cases h1 : runPass (fwd1Step H f)
        { hashes := fun t => baseHash H t
          counter := fun h => (f.tasks.map (baseHash H)).count h
          final := [] } order with
    | error e =>
      intro hok
      simp at hok
    | ok st1 =>
      dsimp only
      obtain ⟨hcnt1, hkeys1, hknd1⟩ :=
        runPass_basic_inv order (fwd1Step H f)
          (fun st t st2 ht hs hcnt hkeys hknd =>
            fwd1Step_basic H f order hndo st t st2 ht hs hcnt hkeys hknd)
          order _ st1 (fun x hx => hx) h1 hcnt0 (by simp) (by simp)
      cases h2 : runPass (bwdStep H f) st1 order.reverse with
      | error e =>
        intro hok
        simp at hok
      | ok st2 =>
        dsimp only
        obtain ⟨hcnt2, hkeys2, hknd2⟩ :=
          runPass_basic_inv order (bwdStep H f)
            (fun st t st2 ht hs hcnt hkeys hknd =>
              bwdStep_basic H f order hndo st t st2 ht hs hcnt hkeys hknd)
            order.reverse st1 st2 (fun x hx => List.mem_reverse.mp hx) h2 hcnt1 hkeys1 hknd1
        cases h3 : runPass (fwd2Step H fuel f) st2 order with
        | error e =>
          intro hok
          simp at hok
        | ok st3 =>
          dsimp only
          intro hok
          obtain ⟨a1, a2, a3, a4⟩ :=
            runPass_fwd2_inv H fuel f order hndo order [] st2 st3 rfl h3 hcnt2 hkeys2 hknd2
              (fun p _ hmem => absurd hmem (List.not_mem_nil _))
              (fun t1 ht1 => absurd ht1 (List.not_mem_nil _))
          cases hok
          exact final_map_nodup st3.hashes order st3.final (generateFlowId H f) a1 a2
            (fun p hp => a3 p hp (a1 p hp)) a4

/-- C1 (code bug): `bugFlow` is a valid acyclic flow — `sorted_tasks`
succeeds and it has no cycle — whose tasks `tD1`, `tD2` carry identical
attribute payloads (equal base digests), with one keyed and one unkeyed edge
into `tD1`; on it `generate_task_ids` raises `TypeError` from
`sorted((e.key, hashes[e.upstream_task]) for e in self.edges_to(t))`, which
compares the `None` key of `tX → tD1` with the `str` key `"k"` of
`tY → tD1`, instead of assigning pairwise-distinct IDs to all tasks. -/
theorem claim_C1_mixed_key_type_error :
    sortedTasks bugFlow = .ok [tX, tY, tD1, tD2] ∧
    ¬ HasCycle bugFlow ∧
    generateTaskIds demoH 100 bugFlow = .error .typeError := by
  refine ⟨by rfl, ?_, by rfl⟩
  intro hcyc
  have herr := hasCycle_sortedTasks_err bugFlow hcyc
  have hok : sortedTasks bugFlow = .ok [tX, tY, tD1, tD2] := by rfl
  rw [hok] at herr
  exact absurd herr (by simp)

set_option maxHeartbeats 1600000 in
/-- The forced-disambiguation loop at work on two pure duplicates (equal
payloads, no edges): the first copy is finalized right after folding its
(empty) edge list, the second collides and is re-hashed once more by the
`while` loop, and the two returned IDs are distinct. -/
theorem generateTaskIds_pure_duplicates_demo :
    generateTaskIds demoH3 10 dupFlow = .ok [(tD1, 504), (tD2, 804)] := by rfl

/-- C8: `generate_flow_id` digests exactly `"<name>:<version-or-empty>"`
(the empty string standing for a null version) and is therefore a function of
`(name, version)` alone: two flows with equal name and version have equal
flow IDs regardless of their task and edge sets. -/
theorem claim_C8_flow_id_name_version (H : HIn → Nat) (n : String) (ver : Option String)
    (ts ts2 : List Task) (es es2 : List Edge) :
    generateFlowId H ⟨n, ver, ts, es⟩ = H (.str (n ++ ":" ++ ver.getD "")) ∧
    generateFlowId H ⟨n, ver, ts, es⟩ = generateFlowId H ⟨n, ver, ts2, es2⟩ :=
  ⟨rfl, rfl⟩

end Prefect
